import Mathlib

/-!
# Verification of the MineSweeperWEB board/reveal core (src/game.ts)

Shallow embedding of the `Minesweeper` class from `src/game.ts`.  The 2D
`Cell[][]` board is embedded as a total function `Nat → Nat → Cell`; the
mutating methods become state-passing functions on `Game`.  The recursive
`revealCell` cascade (whose recursive calls the source defers with
`setTimeout`, a purely cosmetic staggering per the specification) is embedded
synchronously with an explicit fuel parameter; a fuel-stability theorem shows
the chosen fuel reaches the recursion's fixed point, which is the termination
content of the source's recursion.  `Math.random()` draws in `placeMines`
are embedded as an explicit stream of picked coordinates; the `while` loop
consumes the stream and fails with `none` if it is exhausted before the
requested mine count is reached.  The `win()` / `gameOver()` calls are
abstracted to a `GameStatus` field recording which of the two fired (the
source records this only through `isGameOver` plus the displayed overlay).
-/

namespace Minesweeper

/-- One board cell, mirroring the `Cell` interface of `src/game.ts`
(the `row`/`col` fields of the source are the cell's own coordinates and are
represented here by the cell's position in the board function). -/
structure Cell where
  isMine : Bool
  isRevealed : Bool
  isFlagged : Bool
  adjacentMines : Nat
deriving DecidableEq

/-- The abstract game state of the specification: which of `win()` /
`gameOver()` has fired, or whether the first click happened yet. -/
inductive GameStatus
  | notStarted
  | inProgress
  | won
  | lost
deriving DecidableEq

/-- The mutable state of the `Minesweeper` class (game-logic fields only;
DOM/audio fields are presentation glue).  `timerRunning` models whether
`timerInterval` is non-null. -/
structure Game where
  board : Nat → Nat → Cell
  rows : Nat
  cols : Nat
  mines : Nat
  minesLeft : Int
  isGameOver : Bool
  isFirstClick : Bool
  timer : Nat
  timerRunning : Bool
  revealedCount : Nat
  totalNonMines : Nat
  status : GameStatus

/-- Point update of the board function (assignment `this.board[row][col].f = v`). -/
def updateBoard (b : Nat → Nat → Cell) (row col : Nat) (f : Cell → Cell) :
    Nat → Nat → Cell :=
  fun r c => if r = row ∧ c = col then f (b r c) else b r c

/-- The nine candidate coordinates enumerated by the two `for` loops of
`getAdjacentCells` (`r` from `row-1` to `row+1`, `c` from `col-1` to `col+1`),
in loop order, as integers since `row-1` may be `-1`. -/
def adjCandidates (row col : Nat) : List (Int × Int) :=
  [((row : Int) - 1, (col : Int) - 1), ((row : Int) - 1, (col : Int)),
   ((row : Int) - 1, (col : Int) + 1),
   ((row : Int), (col : Int) - 1), ((row : Int), (col : Int)),
   ((row : Int), (col : Int) + 1),
   ((row : Int) + 1, (col : Int) - 1), ((row : Int) + 1, (col : Int)),
   ((row : Int) + 1, (col : Int) + 1)]

/-- `getAdjacentCells(row, col)`: the in-bounds cells of the 3×3 block around
`(row, col)`, excluding the center (the source returns the `Cell` objects;
here we return their coordinates). -/
def getAdjacentCells (rows cols row col : Nat) : List (Nat × Nat) :=
  (adjCandidates row col).filterMap fun p =>
    if 0 ≤ p.1 ∧ p.1 < (rows : Int) ∧ 0 ≤ p.2 ∧ p.2 < (cols : Int) ∧
        ¬(p.1 = (row : Int) ∧ p.2 = (col : Int)) then
      some (p.1.toNat, p.2.toNat)
    else none

/-- `initBoard()`: every cell reset to the empty cell. -/
def initBoard (g : Game) : Game :=
  { g with board := fun _ _ =>
      { isMine := false, isRevealed := false, isFlagged := false, adjacentMines := 0 } }

/-- `newGame()`: stop the timer, reset counters and flags, re-init the board. -/
def newGame (g : Game) : Game :=
  initBoard
    { g with
      timerRunning := false, timer := 0, isGameOver := false,
      isFirstClick := true, minesLeft := (g.mines : Int), revealedCount := 0,
      totalNonMines := g.rows * g.cols - g.mines, status := GameStatus.notStarted }

/-- The `while (minesPlaced < this.mines)` loop of `placeMines`, consuming the
stream of `Math.random()` picks; `none` when the stream runs out first. -/
def placeMinesAux (mines : Nat) (excludeZone : List (Nat × Nat)) :
    (Nat → Nat → Cell) → Nat → List (Nat × Nat) → Option (Nat → Nat → Cell)
  | b, placed, picks =>
    if placed < mines then
      match picks with
      | [] => none
      | (row, col) :: rest =>
        if (b row col).isMine = false ∧ (row, col) ∉ excludeZone then
          placeMinesAux mines excludeZone
            (updateBoard b row col fun c => { c with isMine := true })
            (placed + 1) rest
        else
          placeMinesAux mines excludeZone b placed rest
    else
      some b

/-- `calculateAdjacentMines()`: for every in-bounds non-mine cell, store the
number of mine-bearing cells among its adjacent cells. -/
def calculateAdjacentMines (g : Game) : Game :=
  { g with board := fun row col =>
      if row < g.rows ∧ col < g.cols ∧ (g.board row col).isMine = false then
        { g.board row col with adjacentMines :=
            ((getAdjacentCells g.rows g.cols row col).filter
              fun p => (g.board p.1 p.2).isMine).length }
      else g.board row col }

/-- `placeMines(excludeRow, excludeCol)`: the exclude zone is the clicked cell
together with its adjacent cells; after the placement loop the adjacency
counts are computed. -/
def placeMines (g : Game) (excludeRow excludeCol : Nat)
    (picks : List (Nat × Nat)) : Option Game :=
  let excludeZone :=
    getAdjacentCells g.rows g.cols excludeRow excludeCol ++ [(excludeRow, excludeCol)]
  match placeMinesAux g.mines excludeZone g.board 0 picks with
  | none => none
  | some b => some (calculateAdjacentMines { g with board := b })

/-- `win()`: set the game-over flag, stop the timer, record the win. -/
def winAct (g : Game) : Game :=
  { g with isGameOver := true, timerRunning := false, status := GameStatus.won }

/-- `gameOver(...)`: set the game-over flag, stop the timer, record the loss,
and mark every in-bounds mine cell revealed (for display). -/
def gameOverAct (g : Game) : Game :=
  { g with
    isGameOver := true, timerRunning := false, status := GameStatus.lost,
    board := fun r c =>
      if r < g.rows ∧ c < g.cols ∧ (g.board r c).isMine then
        { g.board r c with isRevealed := true }
      else g.board r c }

/-- `revealCell(row, col)`, fuel-indexed.  The source recursion defers its
recursive calls with `setTimeout` purely for a visual cascade; here the
cascade runs synchronously.  A call whose fuel is exhausted returns the state
unchanged; `revealCellF_stable` shows any fuel above the number of unrevealed
in-bounds cells reaches the fixed point of the recursion.  As in the source,
the cell read happens before any mutation, in-bounds coordinates are assumed
(the source would throw on out-of-bounds access, see `handleClickChecked`),
and the win check compares `revealedCount` with `totalNonMines`. -/
def revealCellF : Nat → Game → Nat → Nat → Game
  | 0, g, _, _ => g
  | fuel + 1, g, row, col =>
    let cell := g.board row col
    if cell.isRevealed || cell.isFlagged then g
    else
      let g1 : Game :=
        { g with
          board := updateBoard g.board row col fun c => { c with isRevealed := true },
          revealedCount := g.revealedCount + 1 }
      if cell.isMine then gameOverAct g1
      else
        let g2 :=
          if cell.adjacentMines = 0 then
            (getAdjacentCells g.rows g.cols row col).foldl
              (fun h p => revealCellF fuel h p.1 p.2) g1
          else g1
        if g2.revealedCount = g2.totalNonMines then winAct g2 else g2

/-- `revealCell(row, col)` with enough fuel for any cascade on the board. -/
def revealCell (g : Game) (row col : Nat) : Game :=
  revealCellF (g.rows * g.cols + 1) g row col

/-- `handleClick` after the first click (`isFirstClick = false`), for in-bounds
coordinates: ignore clicks once the game is over or on flagged/revealed
cells, otherwise reveal.  (On the first click the source additionally runs
`placeMines` and `startTimer` before revealing; that branch is the
composition of `placeMines`, `startTimer` and `revealCell`.) -/
def handleClickPlaced (g : Game) (row col : Nat) : Game :=
  if g.isGameOver then g
  else if (g.board row col).isFlagged || (g.board row col).isRevealed then g
  else revealCell g row col

/-- `handleRightClick`, for in-bounds coordinates: ignore once the game is
over or on revealed cells; otherwise flip the flag and adjust `minesLeft` by
`-1` when flagging, `+1` when unflagging. -/
def handleRightClick (g : Game) (row col : Nat) : Game :=
  if g.isGameOver then g
  else if (g.board row col).isRevealed then g
  else
    let nowFlagged := !(g.board row col).isFlagged
    { g with
      board := updateBoard g.board row col fun c => { c with isFlagged := !c.isFlagged },
      minesLeft := g.minesLeft + (if nowFlagged then -1 else 1) }

/-- The JavaScript failure mode of `this.board[row][col]` on out-of-range
coordinates: `this.board[row]` is `undefined` (or the cell is), and the
subsequent property access throws a `TypeError`. -/
inductive JsError
  | typeErrorUndefined
deriving DecidableEq

/-- `handleClick` with JavaScript array-access semantics: the source performs
no bounds validation, so an out-of-range row or column reaches
`this.board[row][col]` and property access on `undefined` throws a
`TypeError` before any state changes (post-first-click phase). -/
def handleClickChecked (g : Game) (row col : Nat) : Except JsError Game :=
  if g.isGameOver then Except.ok g
  else if row < g.rows ∧ col < g.cols then Except.ok (handleClickPlaced g row col)
  else Except.error JsError.typeErrorUndefined

/-- `handleRightClick` with JavaScript array-access semantics (no bounds
validation in the source; out-of-range access throws a `TypeError`). -/
def handleRightClickChecked (g : Game) (row col : Nat) : Except JsError Game :=
  if g.isGameOver then Except.ok g
  else if row < g.rows ∧ col < g.cols then Except.ok (handleRightClick g row col)
  else Except.error JsError.typeErrorUndefined

/-- `startTimer()`: the interval becomes active (ticks arrive once per
elapsed second while it is). -/
def startTimer (g : Game) : Game := { g with timerRunning := true }

/-- `stopTimer()`: clear the interval. -/
def stopTimer (g : Game) : Game := { g with timerRunning := false }

/-- One interval callback of `startTimer`: `this.timer++`, clamped to 999. -/
def tick (g : Game) : Game :=
  if g.timerRunning then
    let t := g.timer + 1
    { g with timer := if t > 999 then 999 else t }
  else g

/-- The set of in-bounds coordinates of the board. -/
def gridSet (rows cols : Nat) : Finset (Nat × Nat) :=
  Finset.range rows ×ˢ Finset.range cols

/-- Number of revealed in-bounds cells. -/
def revealedCard (g : Game) : Nat :=
  ((gridSet g.rows g.cols).filter fun p => (g.board p.1 p.2).isRevealed = true).card

/-- Number of unrevealed in-bounds cells (the measure of the cascade). -/
def unrevealedCard (g : Game) : Nat :=
  ((gridSet g.rows g.cols).filter fun p => (g.board p.1 p.2).isRevealed = false).card

/-- Number of in-bounds mine cells. -/
def mineCard (g : Game) : Nat :=
  ((gridSet g.rows g.cols).filter fun p => (g.board p.1 p.2).isMine = true).card

/-- Number of in-bounds non-mine cells. -/
def nonMineCard (g : Game) : Nat :=
  ((gridSet g.rows g.cols).filter fun p => (g.board p.1 p.2).isMine = false).card

/-- Every in-bounds non-mine cell stores the adjacency count that
`calculateAdjacentMines` computes for it. -/
def countsCorrect (g : Game) : Prop :=
  ∀ row col, row < g.rows → col < g.cols → (g.board row col).isMine = false →
    (g.board row col).adjacentMines =
      ((getAdjacentCells g.rows g.cols row col).filter
        fun p => (g.board p.1 p.2).isMine).length

/-- No cell on the board is flagged. -/
def noFlags (g : Game) : Prop :=
  ∀ row col, (g.board row col).isFlagged = false

/-- Modelled from the spec: the Moore neighborhood of a cell — the up to 8
surrounding cells (Chebyshev distance 1), clipped at board edges. -/
def mooreNeighborhood (rows cols row col : Nat) : Finset (Nat × Nat) :=
  (gridSet rows cols).filter fun p =>
    ¬(p = (row, col)) ∧ row ≤ p.1 + 1 ∧ p.1 ≤ row + 1 ∧ col ≤ p.2 + 1 ∧ p.2 ≤ col + 1

theorem updateBoard_pos (b : Nat → Nat → Cell) (row col : Nat) (f : Cell → Cell) :
    updateBoard b row col f row col = f (b row col) := by
  simp [updateBoard]

theorem updateBoard_neg (b : Nat → Nat → Cell) (row col : Nat) (f : Cell → Cell)
    {r c : Nat} (h : ¬(r = row ∧ c = col)) : updateBoard b row col f r c = b r c := by
  simp [updateBoard, h]

/-- Membership in `getAdjacentCells`: in-bounds, not the center, and within
the 3×3 block around the center. -/
theorem mem_getAdjacentCells {rows cols row col : Nat} {p : Nat × Nat} :
    p ∈ getAdjacentCells rows cols row col ↔
      p.1 < rows ∧ p.2 < cols ∧ ¬(p.1 = row ∧ p.2 = col) ∧
        row ≤ p.1 + 1 ∧ p.1 ≤ row + 1 ∧ col ≤ p.2 + 1 ∧ p.2 ≤ col + 1 := by
  obtain ⟨a, b⟩ := p
  simp only [getAdjacentCells, adjCandidates, List.mem_filterMap, List.mem_cons,
    List.not_mem_nil, or_false]
  constructor
  · rintro ⟨q, hq, hf⟩
    split at hf
    · rename_i hcond
      have hab : (q.1.toNat, q.2.toNat) = (a, b) := Option.some.inj hf
      rw [Prod.mk.injEq] at hab
      obtain ⟨hcond1, hcond2, hcond3, hcond4, hcond5⟩ := hcond
      obtain ⟨ha, hb⟩ := hab
      rw [not_and_or] at hcond5
      rcases hq with rfl | rfl | rfl | rfl | rfl | rfl | rfl | rfl | rfl <;>
        simp only [] at ha hb hcond1 hcond2 hcond3 hcond4 hcond5
      all_goals try { exfalso; revert hcond5; simp }
      all_goals clear hcond5
      all_goals
        refine ⟨by omega, by omega, ?_, by omega, by omega, by omega, by omega⟩
        rintro ⟨hr, hc⟩
        omega
    · cases hf
  · rintro ⟨h1, h2, h3, h4, h5, h6, h7⟩
    refine ⟨((a : Int), (b : Int)), ?_, ?_⟩
    · simp only [Prod.mk.injEq]
      omega
    · rw [if_pos]
      · simp
      · refine ⟨by omega, by omega, by omega, by omega, ?_⟩
        rintro ⟨hr, hc⟩
        exact h3 ⟨by omega, by omega⟩

/-- The adjacency list never contains the center cell. -/
theorem center_not_mem_getAdjacentCells (rows cols row col : Nat) :
    (row, col) ∉ getAdjacentCells rows cols row col := by
  intro h
  rw [mem_getAdjacentCells] at h
  exact h.2.2.1 ⟨rfl, rfl⟩

/-- Cells returned by `getAdjacentCells` are in bounds. -/
theorem getAdjacentCells_bounds {rows cols row col : Nat} {p : Nat × Nat}
    (h : p ∈ getAdjacentCells rows cols row col) : p.1 < rows ∧ p.2 < cols :=
  ⟨(mem_getAdjacentCells.mp h).1, (mem_getAdjacentCells.mp h).2.1⟩

/-- The adjacency list has no duplicate cells. -/
theorem getAdjacentCells_nodup (rows cols row col : Nat) :
    (getAdjacentCells rows cols row col).Nodup := by
  apply List.Nodup.filterMap
  · rintro ⟨x1, y1⟩ ⟨x2, y2⟩ ⟨a, b⟩ h1 h2
    rw [Option.mem_def] at h1 h2
    split at h1
    · rename_i hc1
      split at h2
      · rename_i hc2
        have e1 := Option.some.inj h1
        have e2 := Option.some.inj h2
        rw [Prod.mk.injEq] at e1 e2
        obtain ⟨hc11, hc12, hc13, hc14, -⟩ := hc1
        obtain ⟨hc21, hc22, hc23, hc24, -⟩ := hc2
        rw [Prod.mk.injEq]
        obtain ⟨e11, e12⟩ := e1
        obtain ⟨e21, e22⟩ := e2
        constructor <;> omega
      · cases h2
    · cases h1
  · simp only [adjCandidates, List.nodup_cons, List.mem_cons, List.not_mem_nil,
      or_false, List.nodup_nil, and_true, not_or, Prod.mk.injEq, not_and]
    norm_num
    omega

/-- `length_filterMap` is strictly below the source length when some element
is dropped. -/
theorem length_filterMap_lt_of_none {α β : Type} (f : α → Option β) (l : List α)
    (x : α) (hx : x ∈ l) (hfx : f x = none) :
    (l.filterMap f).length < l.length := by
  induction l with
  | nil => cases hx
  | cons a l ih =>
    rcases List.mem_cons.mp hx with rfl | hx'
    · rw [List.filterMap_cons, hfx]
      exact Nat.lt_succ_of_le (List.length_filterMap_le f l)
    · rw [List.filterMap_cons]
      cases hfa : f a with
      | none => exact Nat.lt_succ_of_lt (ih hx')
      | some b => simpa using ih hx'

/-- A cell has at most 8 adjacent cells. -/
theorem length_getAdjacentCells_le (rows cols row col : Nat) :
    (getAdjacentCells rows cols row col).length ≤ 8 := by
  have h9 : (adjCandidates row col).length = 9 := by simp [adjCandidates]
  have hmem : ((row : Int), (col : Int)) ∈ adjCandidates row col := by
    simp [adjCandidates]
  have hlt := length_filterMap_lt_of_none
    (fun p : Int × Int =>
      if 0 ≤ p.1 ∧ p.1 < (rows : Int) ∧ 0 ≤ p.2 ∧ p.2 < (cols : Int) ∧
          ¬(p.1 = (row : Int) ∧ p.2 = (col : Int)) then
        some (p.1.toNat, p.2.toNat)
      else none)
    (adjCandidates row col) ((row : Int), (col : Int)) hmem (by simp)
  rw [h9] at hlt
  exact Nat.lt_succ_iff.mp (by simpa [getAdjacentCells] using hlt)

/-- The adjacency list, as a set, is exactly the spec's Moore neighborhood. -/
theorem toFinset_getAdjacentCells (rows cols row col : Nat) :
    (getAdjacentCells rows cols row col).toFinset = mooreNeighborhood rows cols row col := by
  ext p
  obtain ⟨a, b⟩ := p
  simp only [List.mem_toFinset, mem_getAdjacentCells, mooreNeighborhood, gridSet,
    Finset.mem_filter, Finset.mem_product, Finset.mem_range, Prod.mk.injEq]
  tauto

/-! ### Evolution of the game state under `revealCell`

`Evolves g g'` collects the facts that every step of the reveal cascade
preserves: dimensions, mine layout, flags, adjacency counts and the
non-timer scalars are unchanged, and the set of revealed cells only grows
(a cell is revealed at most once, never un-revealed). -/

def Evolves (g g' : Game) : Prop :=
  g'.rows = g.rows ∧ g'.cols = g.cols ∧ g'.mines = g.mines ∧
  g'.minesLeft = g.minesLeft ∧ g'.totalNonMines = g.totalNonMines ∧
  g'.isFirstClick = g.isFirstClick ∧ g'.timer = g.timer ∧
  (∀ r c, (g'.board r c).isMine = (g.board r c).isMine) ∧
  (∀ r c, (g'.board r c).isFlagged = (g.board r c).isFlagged) ∧
  (∀ r c, (g'.board r c).adjacentMines = (g.board r c).adjacentMines) ∧
  (∀ r c, (g.board r c).isRevealed = true → (g'.board r c).isRevealed = true)

theorem evolves_refl (g : Game) : Evolves g g :=
  ⟨rfl, rfl, rfl, rfl, rfl, rfl, rfl, fun _ _ => rfl, fun _ _ => rfl,
    fun _ _ => rfl, fun _ _ h => h⟩

theorem evolves_trans {g1 g2 g3 : Game} (h12 : Evolves g1 g2) (h23 : Evolves g2 g3) :
    Evolves g1 g3 := by
  obtain ⟨a1, a2, a3, a4, a5, a6, a7, a8, a9, a10, a11⟩ := h12
  obtain ⟨b1, b2, b3, b4, b5, b6, b7, b8, b9, b10, b11⟩ := h23
  refine ⟨?_, ?_, ?_, ?_, ?_, ?_, ?_, ?_, ?_, ?_, ?_⟩ <;>
    first
      | omega
      | (intro r c; rw [b8, a8])
      | (intro r c; rw [b9, a9])
      | (intro r c; rw [b10, a10])
      | (intro r c h; exact b11 r c (a11 r c h))
      | (rw [b1, a1])
      | (rw [b2, a2])
      | (rw [b3, a3])
      | (rw [b4, a4])
      | (rw [b5, a5])
      | (rw [b6, a6])

theorem evolves_foldl {α : Type} (step : Game → α → Game) :
    ∀ (l : List α) (g : Game), (∀ h x, x ∈ l → Evolves h (step h x)) →
      Evolves g (l.foldl step g)
  | [], g, _ => evolves_refl g
  | x :: l, g, hstep =>
    evolves_trans (hstep g x (List.mem_cons_self x l))
      (evolves_foldl step l (step g x)
        (fun h y hy => hstep h y (List.mem_cons_of_mem x hy)))

theorem evolves_gameOverAct (g : Game) : Evolves g (gameOverAct g) := by
  refine ⟨rfl, rfl, rfl, rfl, rfl, rfl, rfl, ?_, ?_, ?_, ?_⟩ <;>
    intro r c <;> simp only [gameOverAct] <;> split <;> simp

theorem evolves_winAct (g : Game) : Evolves g (winAct g) :=
  ⟨rfl, rfl, rfl, rfl, rfl, rfl, rfl, fun _ _ => rfl, fun _ _ => rfl,
    fun _ _ => rfl, fun _ _ h => h⟩

theorem evolves_setRevealed (g : Game) (row col : Nat) :
    Evolves g
      { g with
        board := updateBoard g.board row col fun c => { c with isRevealed := true },
        revealedCount := g.revealedCount + 1 } := by
  refine ⟨rfl, rfl, rfl, rfl, rfl, rfl, rfl, ?_, ?_, ?_, ?_⟩ <;>
    intro r c <;> simp only [updateBoard] <;> split <;> simp

/-- The reveal cascade only grows the revealed set and never touches
dimensions, mines, flags, adjacency counts, `minesLeft` or the timer value. -/
theorem evolves_revealCellF : ∀ (fuel : Nat) (g : Game) (row col : Nat),
    Evolves g (revealCellF fuel g row col)
  | 0, g, _, _ => evolves_refl g
  | fuel + 1, g, row, col => by
    rw [revealCellF]
    split
    · exact evolves_refl g
    · split
      · exact evolves_trans (evolves_setRevealed g row col) (evolves_gameOverAct _)
      · refine evolves_trans (evolves_setRevealed g row col) ?_
        dsimp only
        split
        · split
          · exact evolves_trans
              (evolves_foldl _ _ _ (fun h x _ => evolves_revealCellF fuel h x.1 x.2))
              (evolves_winAct _)
          · exact evolves_foldl _ _ _ (fun h x _ => evolves_revealCellF fuel h x.1 x.2)
        · split
          · exact evolves_winAct _
          · exact evolves_refl _

/-! ### The cascade measure: number of unrevealed in-bounds cells -/

theorem unrevealedCard_le_of_evolves {g g' : Game} (h : Evolves g g') :
    unrevealedCard g' ≤ unrevealedCard g := by
  obtain ⟨h1, h2, -, -, -, -, -, -, -, -, hmono⟩ := h
  unfold unrevealedCard
  rw [h1, h2]
  apply Finset.card_le_card
  intro p hp
  rw [Finset.mem_filter] at hp ⊢
  refine ⟨hp.1, ?_⟩
  by_contra hrev
  have : (g.board p.1 p.2).isRevealed = true := by
    cases hb : (g.board p.1 p.2).isRevealed
    · exact absurd hb (by simpa using hrev)
    · rfl
  rw [hmono p.1 p.2 this] at hp
  simpa using hp.2

theorem unrevealedCard_setRevealed_lt (g : Game) (row col : Nat)
    (hrow : row < g.rows) (hcol : col < g.cols)
    (hrev : (g.board row col).isRevealed = false) :
    unrevealedCard
      { g with
        board := updateBoard g.board row col fun c => { c with isRevealed := true },
        revealedCount := g.revealedCount + 1 } < unrevealedCard g := by
  unfold unrevealedCard
  apply Finset.card_lt_card
  rw [Finset.ssubset_iff_of_subset]
  · refine ⟨(row, col), ?_, ?_⟩
    · rw [Finset.mem_filter]
      exact ⟨by simp [gridSet, Finset.mem_product, hrow, hcol], hrev⟩
    · rw [Finset.mem_filter]
      rintro ⟨-, hcontra⟩
      dsimp only at hcontra
      rw [updateBoard_pos] at hcontra
      simp at hcontra
  · intro p hp
    rw [Finset.mem_filter] at hp ⊢
    refine ⟨hp.1, ?_⟩
    rcases hp with ⟨-, hun⟩
    dsimp only at hun
    by_cases hpc : p.1 = row ∧ p.2 = col
    · rw [hpc.1, hpc.2, updateBoard_pos] at hun
      simp at hun
    · rwa [updateBoard_neg _ _ _ _ hpc] at hun

theorem unrevealedCard_le_size (g : Game) :
    unrevealedCard g ≤ g.rows * g.cols := by
  unfold unrevealedCard
  calc ((gridSet g.rows g.cols).filter fun p => (g.board p.1 p.2).isRevealed = false).card
      ≤ (gridSet g.rows g.cols).card := Finset.card_filter_le _ _
    _ = g.rows * g.cols := by simp [gridSet]

/-! ### Fuel stability: the cascade recursion reaches its fixed point -/

theorem revealCellF_stable_foldl (f : Nat)
    (IH : ∀ (g : Game) (row col : Nat), row < g.rows → col < g.cols →
        unrevealedCard g < f →
        revealCellF (f + 1) g row col = revealCellF f g row col) :
    ∀ (l : List (Nat × Nat)) (g : Game),
      (∀ p ∈ l, p.1 < g.rows ∧ p.2 < g.cols) → unrevealedCard g < f →
      l.foldl (fun h p => revealCellF (f + 1) h p.1 p.2) g =
        l.foldl (fun h p => revealCellF f h p.1 p.2) g
  | [], _, _, _ => rfl
  | p :: l, g, hl, hf => by
    have hp := hl p (List.mem_cons_self p l)
    have hhead : revealCellF (f + 1) g p.1 p.2 = revealCellF f g p.1 p.2 :=
      IH g p.1 p.2 hp.1 hp.2 hf
    have hev : Evolves g (revealCellF f g p.1 p.2) := evolves_revealCellF f g p.1 p.2
    simp only [List.foldl_cons, hhead]
    apply revealCellF_stable_foldl f IH l
    · intro q hq
      have := hl q (List.mem_cons_of_mem p hq)
      rw [hev.1, hev.2.1]
      exact this
    · exact Nat.lt_of_le_of_lt (unrevealedCard_le_of_evolves hev) hf

/-- With fuel above the number of unrevealed cells, one more unit of fuel
changes nothing: the recursion has reached its fixed point. -/
theorem revealCellF_stable : ∀ (fuel : Nat) (g : Game) (row col : Nat),
    row < g.rows → col < g.cols → unrevealedCard g < fuel →
    revealCellF (fuel + 1) g row col = revealCellF fuel g row col
  | 0, g, _, _, _, _, hf => absurd hf (Nat.not_lt_zero _)
  | f + 1, g, row, col, hrow, hcol, hf => by
    conv_lhs => rw [revealCellF]
    conv_rhs => rw [revealCellF]
    dsimp only
    split
    · rfl
    · rename_i hguard
      split
      · rfl
      · have hrev : (g.board row col).isRevealed = false := by
          cases hb : (g.board row col).isRevealed
          · rfl
          · rw [hb] at hguard; simp at hguard
        have hlt := unrevealedCard_setRevealed_lt g row col hrow hcol hrev
        split
        · have hfoldl := revealCellF_stable_foldl f
            (fun g' r' c' h1 h2 h3 => revealCellF_stable f g' r' c' h1 h2 h3)
            (getAdjacentCells g.rows g.cols row col)
            { g with
              board := updateBoard g.board row col fun c => { c with isRevealed := true },
              revealedCount := g.revealedCount + 1 }
            (fun p hp => getAdjacentCells_bounds hp)
            (by omega)
          rw [hfoldl]
        · rfl

/-- Any two sufficient fuels give the same cascade result. -/
theorem revealCellF_congr (g : Game) (row col : Nat) (hrow : row < g.rows)
    (hcol : col < g.cols) :
    ∀ {f1 f2 : Nat}, unrevealedCard g < f1 → f1 ≤ f2 →
      revealCellF f2 g row col = revealCellF f1 g row col := by
  intro f1 f2 h1 hle
  induction f2 with
  | zero =>
    have : f1 = 0 := Nat.le_zero.mp hle
    rw [this]
  | succ f ih =>
    rcases Nat.lt_or_ge f1 (f + 1) with hlt | hge
    · have hle' : f1 ≤ f := Nat.lt_succ_iff.mp hlt
      rw [revealCellF_stable f g row col hrow hcol (Nat.lt_of_lt_of_le h1 hle')]
      exact ih hle'
    · have : f1 = f + 1 := Nat.le_antisymm hle hge
      rw [this]

/-- `revealCell` computes the fixed point: any fuel above the unrevealed-cell
count gives the same result. -/
theorem revealCell_eq_revealCellF (g : Game) (row col : Nat) (hrow : row < g.rows)
    (hcol : col < g.cols) {f : Nat} (hf : unrevealedCard g < f) :
    revealCell g row col = revealCellF f g row col := by
  unfold revealCell
  rcases Nat.le_total f (g.rows * g.cols + 1) with hle | hle
  · exact revealCellF_congr g row col hrow hcol hf hle
  · rw [revealCellF_congr g row col hrow hcol
      (Nat.lt_of_le_of_lt (unrevealedCard_le_size g) (Nat.lt_succ_self _)) hle]

theorem Evolves.rows_eq {g g' : Game} (h : Evolves g g') : g'.rows = g.rows := h.1

theorem Evolves.cols_eq {g g' : Game} (h : Evolves g g') : g'.cols = g.cols := h.2.1

theorem Evolves.total_eq {g g' : Game} (h : Evolves g g') :
    g'.totalNonMines = g.totalNonMines := h.2.2.2.2.1

theorem Evolves.mine_eq {g g' : Game} (h : Evolves g g') (r c : Nat) :
    (g'.board r c).isMine = (g.board r c).isMine := h.2.2.2.2.2.2.2.1 r c

theorem Evolves.flag_eq {g g' : Game} (h : Evolves g g') (r c : Nat) :
    (g'.board r c).isFlagged = (g.board r c).isFlagged := h.2.2.2.2.2.2.2.2.1 r c

theorem Evolves.adj_eq {g g' : Game} (h : Evolves g g') (r c : Nat) :
    (g'.board r c).adjacentMines = (g.board r c).adjacentMines :=
  h.2.2.2.2.2.2.2.2.2.1 r c

theorem Evolves.rev_mono {g g' : Game} (h : Evolves g g') {r c : Nat}
    (hr : (g.board r c).isRevealed = true) : (g'.board r c).isRevealed = true :=
  h.2.2.2.2.2.2.2.2.2.2 r c hr

theorem countsCorrect_of_evolves {g g' : Game} (hc : countsCorrect g)
    (h : Evolves g g') : countsCorrect g' := by
  intro row col hrow hcol hmine
  rw [h.rows_eq] at hrow
  rw [h.cols_eq] at hcol
  rw [h.mine_eq] at hmine
  rw [h.adj_eq, h.rows_eq, h.cols_eq, hc row col hrow hcol hmine]
  congr 1
  apply List.filter_congr
  intro p hp
  rw [h.mine_eq]

theorem noFlags_of_evolves {g g' : Game} (hf : noFlags g) (h : Evolves g g') :
    noFlags g' := by
  intro row col
  rw [h.flag_eq]
  exact hf row col

/-- If a cell's stored adjacency count is `0` and the counts are correct,
none of its adjacent cells is a mine. -/
theorem no_mine_adjacent_of_zero {g : Game} (hc : countsCorrect g) {row col : Nat}
    (hrow : row < g.rows) (hcol : col < g.cols)
    (hmine : (g.board row col).isMine = false)
    (hzero : (g.board row col).adjacentMines = 0) :
    ∀ q ∈ getAdjacentCells g.rows g.cols row col, (g.board q.1 q.2).isMine = false := by
  intro q hq
  have h0 : ((getAdjacentCells g.rows g.cols row col).filter
      fun p => (g.board p.1 p.2).isMine).length = 0 := by
    rw [← hc row col hrow hcol hmine]
    exact hzero
  rw [List.length_eq_zero] at h0
  have := List.filter_eq_nil_iff.mp h0 q hq
  cases hb : (g.board q.1 q.2).isMine
  · rfl
  · exact absurd (by simpa using hb) this

/-- A call with positive fuel reveals its unflagged target cell. -/
theorem revealCellF_reveals (fuel : Nat) (g : Game) (row col : Nat)
    (hfl : (g.board row col).isFlagged = false) :
    ((revealCellF (fuel + 1) g row col).board row col).isRevealed = true := by
  rw [revealCellF]
  dsimp only
  split
  · rename_i h
    cases hb : (g.board row col).isRevealed
    · rw [hb, hfl] at h
      simp at h
    · rfl
  · have hg1 : (((
        { g with
          board := updateBoard g.board row col fun c => { c with isRevealed := true },
          revealedCount := g.revealedCount + 1 } : Game)).board row col).isRevealed = true := by
      dsimp only
      rw [updateBoard_pos]
    split
    · exact (evolves_gameOverAct _).rev_mono hg1
    · split
      · split
        · exact ((evolves_trans
            (evolves_foldl _ _ _ (fun h x _ => evolves_revealCellF fuel h x.1 x.2))
            (evolves_winAct _)).rev_mono hg1)
        · exact ((evolves_foldl _ _ _
            (fun h x _ => evolves_revealCellF fuel h x.1 x.2)).rev_mono hg1)
      · split
        · exact (evolves_winAct _).rev_mono hg1
        · exact hg1

/-! ### Revealing a non-mine cell: only safe cells get revealed, and the
game can only stay as it was or be won (never lost). -/

/-- Outcome of a reveal step on a safe (non-mine) target: the status is
unchanged or becomes `won`, `isGameOver` can only be set by that win, and
every newly revealed cell is a non-mine. -/
def SafeOutcome (g g' : Game) : Prop :=
  (g'.status = g.status ∨ g'.status = GameStatus.won) ∧
  (g'.isGameOver = g.isGameOver ∨ g'.status = GameStatus.won ∧ g'.isGameOver = true) ∧
  (g'.timerRunning = g.timerRunning ∨ g'.status = GameStatus.won ∧
    g'.timerRunning = false) ∧
  (∀ r c, (g'.board r c).isRevealed = true →
    (g.board r c).isRevealed = true ∨ (g.board r c).isMine = false) ∧
  (g'.status = GameStatus.won → g'.isGameOver = true ∨ g.status = GameStatus.won)

theorem safeOutcome_refl (g : Game) : SafeOutcome g g :=
  ⟨Or.inl rfl, Or.inl rfl, Or.inl rfl, fun _ _ h => Or.inl h, fun h => Or.inr h⟩

theorem safeOutcome_trans {g1 g2 g3 : Game} (hev : Evolves g1 g2)
    (h12 : SafeOutcome g1 g2) (h23 : SafeOutcome g2 g3) : SafeOutcome g1 g3 := by
  obtain ⟨s12, go12, t12, r12, w12⟩ := h12
  obtain ⟨s23, go23, t23, r23, w23⟩ := h23
  have hst : g3.status = g1.status ∨ g3.status = GameStatus.won := by
    rcases s23 with hs | hs
    · rw [hs]
      exact s12
    · exact Or.inr hs
  refine ⟨hst, ?_, ?_, ?_, ?_⟩
  · rcases go23 with hgo | hgo
    · rcases go12 with hgo' | hgo'
      · exact Or.inl (hgo.trans hgo')
      · rcases s23 with hs | hs
        · exact Or.inr ⟨hs.trans hgo'.1, hgo.trans hgo'.2⟩
        · exact Or.inr ⟨hs, hgo.trans hgo'.2⟩
    · exact Or.inr hgo
  · rcases t23 with ht | ht
    · rcases t12 with ht' | ht'
      · exact Or.inl (ht.trans ht')
      · rcases s23 with hs | hs
        · exact Or.inr ⟨hs.trans ht'.1, ht.trans ht'.2⟩
        · exact Or.inr ⟨hs, ht.trans ht'.2⟩
    · exact Or.inr ht
  · intro r c h3
    rcases r23 r c h3 with h2 | h2
    · rcases r12 r c h2 with h1 | h1
      · exact Or.inl h1
      · exact Or.inr h1
    · rw [hev.mine_eq] at h2
      exact Or.inr h2
  · intro hw3
    rcases w23 hw3 with hgo3 | hw2
    · exact Or.inl hgo3
    · rcases w12 hw2 with hgo2 | hw1
      · rcases go23 with hgo | hgo
        · exact Or.inl (hgo.trans hgo2)
        · exact Or.inl hgo.2
      · exact Or.inr hw1

theorem revealCellF_safe_foldl (f : Nat)
    (IH : ∀ (g : Game) (row col : Nat), countsCorrect g → row < g.rows →
      col < g.cols → (g.board row col).isMine = false →
      SafeOutcome g (revealCellF f g row col)) :
    ∀ (l : List (Nat × Nat)) (g : Game), countsCorrect g →
      (∀ p ∈ l, p.1 < g.rows ∧ p.2 < g.cols ∧ (g.board p.1 p.2).isMine = false) →
      SafeOutcome g (l.foldl (fun h p => revealCellF f h p.1 p.2) g)
  | [], g, _, _ => safeOutcome_refl g
  | p :: l, g, hc, hl => by
    have hp := hl p (List.mem_cons_self p l)
    have hev : Evolves g (revealCellF f g p.1 p.2) := evolves_revealCellF f g p.1 p.2
    have hhead : SafeOutcome g (revealCellF f g p.1 p.2) :=
      IH g p.1 p.2 hc hp.1 hp.2.1 hp.2.2
    simp only [List.foldl_cons]
    refine safeOutcome_trans hev hhead
      (revealCellF_safe_foldl f IH l (revealCellF f g p.1 p.2)
        (countsCorrect_of_evolves hc hev) ?_)
    intro q hq
    obtain ⟨h1, h2, h3⟩ := hl q (List.mem_cons_of_mem p hq)
    rw [hev.rows_eq, hev.cols_eq, hev.mine_eq]
    exact ⟨h1, h2, h3⟩

/-- Revealing an in-bounds non-mine cell (with correct adjacency counts)
yields a `SafeOutcome`: in particular the cascade never reveals a mine and
never loses the game. -/
theorem revealCellF_safe : ∀ (fuel : Nat) (g : Game) (row col : Nat),
    countsCorrect g → row < g.rows → col < g.cols →
    (g.board row col).isMine = false →
    SafeOutcome g (revealCellF fuel g row col)
  | 0, g, _, _, _, _, _, _ => safeOutcome_refl g
  | fuel + 1, g, row, col, hc, hrow, hcol, hmine => by
    rw [revealCellF]
    dsimp only
    split
    · exact safeOutcome_refl g
    · split
      · rename_i hm
        rw [hmine] at hm
        simp at hm
      · rename_i hguard hm
        have hev1 := evolves_setRevealed g row col
        have hsafe1 : SafeOutcome g
            { g with
              board := updateBoard g.board row col fun c => { c with isRevealed := true },
              revealedCount := g.revealedCount + 1 } := by
          refine ⟨Or.inl rfl, Or.inl rfl, Or.inl rfl, ?_, fun h => Or.inr h⟩
          intro r c h
          dsimp only at h
          by_cases hrc : r = row ∧ c = col
          · rw [hrc.1, hrc.2]
            exact Or.inr hmine
          · rw [updateBoard_neg _ _ _ _ hrc] at h
            exact Or.inl h
        split
        · rename_i hzero
          have hnomine := no_mine_adjacent_of_zero hc hrow hcol hmine hzero
          have hfold : SafeOutcome _ _ := revealCellF_safe_foldl fuel
            (fun g' r' c' a b cc d => revealCellF_safe fuel g' r' c' a b cc d)
            (getAdjacentCells g.rows g.cols row col) _
            (countsCorrect_of_evolves hc hev1) ?_
          · split
            · refine safeOutcome_trans hev1 hsafe1 (safeOutcome_trans
                (evolves_foldl _ _ _ (fun h x _ => evolves_revealCellF fuel h x.1 x.2))
                hfold ?_)
              exact ⟨Or.inr rfl, Or.inr ⟨rfl, rfl⟩, Or.inr ⟨rfl, rfl⟩,
                fun _ _ h => Or.inl h, fun _ => Or.inl rfl⟩
            · exact safeOutcome_trans hev1 hsafe1 hfold
          · intro q hq
            obtain ⟨h1, h2⟩ := getAdjacentCells_bounds hq
            refine ⟨h1, h2, ?_⟩
            rw [hev1.mine_eq]
            exact hnomine q hq
        · split
          · exact safeOutcome_trans hev1 hsafe1
              ⟨Or.inr rfl, Or.inr ⟨rfl, rfl⟩, Or.inr ⟨rfl, rfl⟩, fun _ _ h => Or.inl h, fun _ => Or.inl rfl⟩
          · exact hsafe1

/-! ### `revealedCount` tracks the number of revealed cells -/

theorem revealedCard_setRevealed (g : Game) (row col : Nat) (hrow : row < g.rows)
    (hcol : col < g.cols) (hrev : (g.board row col).isRevealed = false) :
    revealedCard
      { g with
        board := updateBoard g.board row col fun c => { c with isRevealed := true },
        revealedCount := g.revealedCount + 1 } = revealedCard g + 1 := by
  unfold revealedCard
  have hins : ((gridSet g.rows g.cols).filter fun p =>
      ((updateBoard g.board row col fun c => { c with isRevealed := true })
        p.1 p.2).isRevealed = true) =
      insert (row, col) ((gridSet g.rows g.cols).filter fun p =>
        (g.board p.1 p.2).isRevealed = true) := by
    ext p
    rw [Finset.mem_insert, Finset.mem_filter, Finset.mem_filter]
    constructor
    · rintro ⟨hgrid, hrevp⟩
      by_cases hpc : p.1 = row ∧ p.2 = col
      · left
        obtain ⟨h1, h2⟩ := hpc
        obtain ⟨pa, pb⟩ := p
        simp only at h1 h2
        rw [h1, h2]
      · right
        rw [updateBoard_neg _ _ _ _ hpc] at hrevp
        exact ⟨hgrid, hrevp⟩
    · rintro (rfl | ⟨hgrid, hrevp⟩)
      · refine ⟨by simp [gridSet, Finset.mem_product, hrow, hcol], ?_⟩
        rw [updateBoard_pos]
      · refine ⟨hgrid, ?_⟩
        by_cases hpc : p.1 = row ∧ p.2 = col
        · rw [hpc.1, hpc.2, updateBoard_pos]
        · rwa [updateBoard_neg _ _ _ _ hpc]
  dsimp only
  rw [hins, Finset.card_insert_of_not_mem]
  rw [Finset.mem_filter]
  rintro ⟨-, hcontra⟩
  rw [hrev] at hcontra
  cases hcontra

/-- The bookkeeping relation of a safe reveal: the increase of the
`revealedCount` counter equals the number of newly revealed cells (each
revealed cell is counted exactly once). -/
def CountOutcome (g g' : Game) : Prop :=
  g'.revealedCount + revealedCard g = g.revealedCount + revealedCard g'

theorem countOutcome_refl (g : Game) : CountOutcome g g := rfl

theorem countOutcome_trans {g1 g2 g3 : Game} (h12 : CountOutcome g1 g2)
    (h23 : CountOutcome g2 g3) : CountOutcome g1 g3 := by
  unfold CountOutcome at *
  omega

theorem revealCellF_count_foldl (f : Nat)
    (IH : ∀ (g : Game) (row col : Nat), countsCorrect g → row < g.rows →
      col < g.cols → (g.board row col).isMine = false →
      CountOutcome g (revealCellF f g row col)) :
    ∀ (l : List (Nat × Nat)) (g : Game), countsCorrect g →
      (∀ p ∈ l, p.1 < g.rows ∧ p.2 < g.cols ∧ (g.board p.1 p.2).isMine = false) →
      CountOutcome g (l.foldl (fun h p => revealCellF f h p.1 p.2) g)
  | [], g, _, _ => countOutcome_refl g
  | p :: l, g, hc, hl => by
    have hp := hl p (List.mem_cons_self p l)
    have hev : Evolves g (revealCellF f g p.1 p.2) := evolves_revealCellF f g p.1 p.2
    simp only [List.foldl_cons]
    refine countOutcome_trans (IH g p.1 p.2 hc hp.1 hp.2.1 hp.2.2)
      (revealCellF_count_foldl f IH l (revealCellF f g p.1 p.2)
        (countsCorrect_of_evolves hc hev) ?_)
    intro q hq
    obtain ⟨h1, h2, h3⟩ := hl q (List.mem_cons_of_mem p hq)
    rw [hev.rows_eq, hev.cols_eq, hev.mine_eq]
    exact ⟨h1, h2, h3⟩

/-- Revealing an in-bounds non-mine cell increments `revealedCount` exactly
once per newly revealed cell. -/
theorem revealCellF_count : ∀ (fuel : Nat) (g : Game) (row col : Nat),
    countsCorrect g → row < g.rows → col < g.cols →
    (g.board row col).isMine = false →
    CountOutcome g (revealCellF fuel g row col)
  | 0, g, _, _, _, _, _, _ => countOutcome_refl g
  | fuel + 1, g, row, col, hc, hrow, hcol, hmine => by
    rw [revealCellF]
    dsimp only
    split
    · exact countOutcome_refl g
    · split
      · rename_i hm
        rw [hmine] at hm
        simp at hm
      · rename_i hguard hm
        have hrev : (g.board row col).isRevealed = false := by
          cases hb : (g.board row col).isRevealed
          · rfl
          · rw [hb] at hguard
            simp at hguard
        have hev1 := evolves_setRevealed g row col
        have hcount1 : CountOutcome g
            { g with
              board := updateBoard g.board row col fun c => { c with isRevealed := true },
              revealedCount := g.revealedCount + 1 } := by
          unfold CountOutcome
          rw [revealedCard_setRevealed g row col hrow hcol hrev]
          dsimp only
          omega
        split
        · rename_i hzero
          have hnomine := no_mine_adjacent_of_zero hc hrow hcol hmine hzero
          have hfold : CountOutcome _ _ := revealCellF_count_foldl fuel
            (fun g' r' c' a b cc d => revealCellF_count fuel g' r' c' a b cc d)
            (getAdjacentCells g.rows g.cols row col) _
            (countsCorrect_of_evolves hc hev1) ?_
          · split
            · exact countOutcome_trans hcount1 (countOutcome_trans hfold rfl)
            · exact countOutcome_trans hcount1 hfold
          · intro q hq
            obtain ⟨h1, h2⟩ := getAdjacentCells_bounds hq
            refine ⟨h1, h2, ?_⟩
            rw [hev1.mine_eq]
            exact hnomine q hq
        · split
          · exact countOutcome_trans hcount1 rfl
          · exact hcount1

/-! ### The flood-fill region: connectivity and closure of zero cells -/

/-- One connectivity step: `q` is adjacent to `p` and revealed in `g`. -/
def AdjStep (g : Game) (p q : Nat × Nat) : Prop :=
  q ∈ getAdjacentCells g.rows g.cols p.1 p.2 ∧ (g.board q.1 q.2).isRevealed = true

/-- `p` is connected to `start` by a chain of adjacency steps through
revealed cells of `g`. -/
def ReachesFrom (g : Game) (start p : Nat × Nat) : Prop :=
  Relation.ReflTransGen (AdjStep g) start p

theorem ReachesFrom.mono {g g' : Game} (hev : Evolves g g') {s p : Nat × Nat}
    (h : ReachesFrom g s p) : ReachesFrom g' s p := by
  refine Relation.ReflTransGen.mono ?_ h
  rintro a b ⟨hadj, hrev⟩
  rw [← hev.rows_eq, ← hev.cols_eq] at hadj
  exact ⟨hadj, hev.rev_mono hrev⟩

/-- The region postcondition of one reveal call: each newly revealed cell is
connected to the clicked cell through revealed cells, the clicked cell itself
is revealed, and a newly revealed cell with stored count `0` has all its
unflagged adjacent cells revealed. -/
def CascadeOutcome (g : Game) (start : Nat × Nat) (g' : Game) : Prop :=
  ∀ r c, r < g.rows → c < g.cols → (g.board r c).isRevealed = false →
    (g'.board r c).isRevealed = true →
    (g'.board start.1 start.2).isRevealed = true ∧
    ReachesFrom g' start (r, c) ∧
    ((g.board r c).adjacentMines = 0 →
      ∀ q ∈ getAdjacentCells g.rows g.cols r c,
        (g.board q.1 q.2).isFlagged = false →
        (g'.board q.1 q.2).isRevealed = true)

theorem revealCellF_cascade_foldl (f : Nat)
    (IH : ∀ (g : Game) (row col : Nat), countsCorrect g → row < g.rows →
      col < g.cols → (g.board row col).isMine = false → unrevealedCard g < f →
      CascadeOutcome g (row, col) (revealCellF f g row col)) :
    ∀ (l : List (Nat × Nat)) (g : Game), countsCorrect g →
      (∀ p ∈ l, p.1 < g.rows ∧ p.2 < g.cols ∧ (g.board p.1 p.2).isMine = false) →
      unrevealedCard g < f →
      (∀ p ∈ l, (g.board p.1 p.2).isFlagged = false →
        (((l.foldl (fun h x => revealCellF f h x.1 x.2) g).board p.1 p.2).isRevealed
          = true)) ∧
      (∀ r c, r < g.rows → c < g.cols → (g.board r c).isRevealed = false →
        (((l.foldl (fun h x => revealCellF f h x.1 x.2) g).board r c).isRevealed
          = true) →
        (∃ p ∈ l,
          (((l.foldl (fun h x => revealCellF f h x.1 x.2) g).board p.1 p.2).isRevealed
            = true) ∧
          ReachesFrom (l.foldl (fun h x => revealCellF f h x.1 x.2) g) p (r, c)) ∧
        ((g.board r c).adjacentMines = 0 →
          ∀ q ∈ getAdjacentCells g.rows g.cols r c,
            (g.board q.1 q.2).isFlagged = false →
            (((l.foldl (fun h x => revealCellF f h x.1 x.2) g).board q.1 q.2).isRevealed
              = true)))
  | [], g, _, _, _ => by
    refine ⟨by simp, ?_⟩
    intro r c _ _ hrev0 hrev1
    rw [List.foldl_nil] at hrev1
    rw [hrev0] at hrev1
    cases hrev1
  | p :: l, g, hc, hl, hf => by
    obtain ⟨f', rfl⟩ : ∃ f', f = f' + 1 := ⟨f - 1, by omega⟩
    have hp := hl p (List.mem_cons_self p l)
    have hevh : Evolves g (revealCellF (f' + 1) g p.1 p.2) :=
      evolves_revealCellF (f' + 1) g p.1 p.2
    have hct : countsCorrect (revealCellF (f' + 1) g p.1 p.2) :=
      countsCorrect_of_evolves hc hevh
    have hlt : (∀ q ∈ l, q.1 < (revealCellF (f' + 1) g p.1 p.2).rows ∧
        q.2 < (revealCellF (f' + 1) g p.1 p.2).cols ∧
        ((revealCellF (f' + 1) g p.1 p.2).board q.1 q.2).isMine = false) := by
      intro q hq
      obtain ⟨h1, h2, h3⟩ := hl q (List.mem_cons_of_mem p hq)
      rw [hevh.rows_eq, hevh.cols_eq, hevh.mine_eq]
      exact ⟨h1, h2, h3⟩
    have hft : unrevealedCard (revealCellF (f' + 1) g p.1 p.2) < f' + 1 :=
      Nat.lt_of_le_of_lt (unrevealedCard_le_of_evolves hevh) hf
    obtain ⟨tc1, tc2⟩ := revealCellF_cascade_foldl (f' + 1) IH l
      (revealCellF (f' + 1) g p.1 p.2) hct hlt hft
    have hevt : Evolves (revealCellF (f' + 1) g p.1 p.2)
        (l.foldl (fun h x => revealCellF (f' + 1) h x.1 x.2)
          (revealCellF (f' + 1) g p.1 p.2)) :=
      evolves_foldl _ _ _ (fun h x _ => evolves_revealCellF (f' + 1) h x.1 x.2)
    simp only [List.foldl_cons]
    constructor
    · rintro x hx hflx
      rcases List.mem_cons.mp hx with rfl | hx'
      · exact hevt.rev_mono (revealCellF_reveals f' g x.1 x.2 hflx)
      · refine tc1 x hx' ?_
        rw [hevh.flag_eq]
        exact hflx
    · intro r c hr hcb hrev0 hrev1
      by_cases hmid : ((revealCellF (f' + 1) g p.1 p.2).board r c).isRevealed = true
      · obtain ⟨hstart, hreach, hclos⟩ :=
          IH g p.1 p.2 hc hp.1 hp.2.1 hp.2.2 hf r c hr hcb hrev0 hmid
        refine ⟨⟨p, List.mem_cons_self p l, hevt.rev_mono hstart, hreach.mono hevt⟩, ?_⟩
        intro hzero q hq hflq
        exact hevt.rev_mono (hclos hzero q hq hflq)
      · have hmid' : ((revealCellF (f' + 1) g p.1 p.2).board r c).isRevealed = false := by
          cases hb : ((revealCellF (f' + 1) g p.1 p.2).board r c).isRevealed
          · rfl
          · exact absurd hb hmid
        obtain ⟨⟨q, hq, hrevq, hreachq⟩, closT⟩ := tc2 r c
          (by rw [hevh.rows_eq]; exact hr) (by rw [hevh.cols_eq]; exact hcb)
          hmid' hrev1
        refine ⟨⟨q, List.mem_cons_of_mem p hq, hrevq, hreachq⟩, ?_⟩
        intro hzero q' hq' hflq'
        refine closT ?_ q' ?_ ?_
        · rw [hevh.adj_eq]
          exact hzero
        · rw [hevh.rows_eq, hevh.cols_eq]
          exact hq'
        · rw [hevh.flag_eq]
          exact hflq'

/-- Leaf case of the cascade theorem: the clicked cell has a non-zero
count, so only that cell is revealed. -/
theorem cascade_leaf_nonzero (g : Game) {X : Game} (row col : Nat)
    (hrevT : (g.board row col).isRevealed = false)
    (hXT : (X.board row col).isRevealed = true)
    (hXother : ∀ r c, ¬(r = row ∧ c = col) →
      (X.board r c).isRevealed = (g.board r c).isRevealed)
    (hnz : ¬(g.board row col).adjacentMines = 0) :
    CascadeOutcome g (row, col) X := by
  intro r c hr hcb hrev0 hrev1
  by_cases hrc : r = row ∧ c = col
  · obtain ⟨rfl, rfl⟩ := hrc
    exact ⟨hXT, Relation.ReflTransGen.refl, fun hz => absurd hz hnz⟩
  · rw [hXother r c hrc, hrev0] at hrev1
    cases hrev1

/-- Leaf case of the cascade theorem: the clicked cell has count zero and the
fold over its adjacent cells has run. -/
theorem cascade_leaf_zero (g : Game) {g1 g2 X : Game} (row col : Nat)
    (hev1 : Evolves g g1) (hev2 : Evolves g1 g2) (hevX : Evolves g2 X)
    (hXboard : ∀ r c, (X.board r c).isRevealed = (g2.board r c).isRevealed)
    (hrevT : (g.board row col).isRevealed = false)
    (hg1other : ∀ r c, ¬(r = row ∧ c = col) →
      (g1.board r c).isRevealed = (g.board r c).isRevealed)
    (hrevT2 : (g2.board row col).isRevealed = true)
    (cc1 : ∀ p ∈ getAdjacentCells g.rows g.cols row col,
      (g1.board p.1 p.2).isFlagged = false → (g2.board p.1 p.2).isRevealed = true)
    (cc2 : ∀ r c, r < g1.rows → c < g1.cols → (g1.board r c).isRevealed = false →
      (g2.board r c).isRevealed = true →
      (∃ p ∈ getAdjacentCells g.rows g.cols row col,
        (g2.board p.1 p.2).isRevealed = true ∧ ReachesFrom g2 p (r, c)) ∧
      ((g1.board r c).adjacentMines = 0 →
        ∀ q ∈ getAdjacentCells g1.rows g1.cols r c,
          (g1.board q.1 q.2).isFlagged = false →
          (g2.board q.1 q.2).isRevealed = true)) :
    CascadeOutcome g (row, col) X := by
  intro r c hr hcb hrev0 hrev1
  have hstart : (X.board row col).isRevealed = true := by
    rw [hXboard]
    exact hrevT2
  by_cases hrc : r = row ∧ c = col
  · obtain ⟨rfl, rfl⟩ := hrc
    refine ⟨hstart, Relation.ReflTransGen.refl, ?_⟩
    intro hzero q hq hflq
    rw [hXboard]
    refine cc1 q hq ?_
    rw [hev1.flag_eq]
    exact hflq
  · have hrev0' : (g1.board r c).isRevealed = false := by
      rw [hg1other r c hrc]
      exact hrev0
    have hrev1' : (g2.board r c).isRevealed = true := by
      rw [← hXboard]
      exact hrev1
    obtain ⟨⟨q, hql, hrevq, hreachq⟩, closT⟩ := cc2 r c
      (by rw [hev1.rows_eq]; exact hr) (by rw [hev1.cols_eq]; exact hcb) hrev0' hrev1'
    refine ⟨hstart, ?_, ?_⟩
    · refine Relation.ReflTransGen.head ⟨?_, ?_⟩ (hreachq.mono hevX)
      · rw [hevX.rows_eq, hev2.rows_eq, hev1.rows_eq, hevX.cols_eq, hev2.cols_eq,
          hev1.cols_eq]
        exact hql
      · rw [hXboard]
        exact hrevq
    · intro hzero q' hq' hflq'
      rw [hXboard]
      refine closT ?_ q' ?_ ?_
      · rw [hev1.adj_eq]
        exact hzero
      · rw [hev1.rows_eq, hev1.cols_eq]
        exact hq'
      · rw [hev1.flag_eq]
        exact hflq'

/-- Revealing an in-bounds, non-mine cell on a board with correct counts and
enough fuel produces a connected region: every newly revealed cell is
reachable from the clicked cell, and every newly revealed zero-count cell has
all its unflagged adjacent cells revealed. -/
theorem revealCellF_cascade : ∀ (fuel : Nat) (g : Game) (row col : Nat),
    countsCorrect g → row < g.rows → col < g.cols →
    (g.board row col).isMine = false → unrevealedCard g < fuel →
    CascadeOutcome g (row, col) (revealCellF fuel g row col)
  | 0, _, _, _, _, _, _, _, hf => absurd hf (Nat.not_lt_zero _)
  | fuel + 1, g, row, col, hc, hrow, hcol, hmine, hf => by
    rw [revealCellF]
    dsimp only
    split
    · intro r c _ _ hrev0 hrev1
      rw [hrev0] at hrev1
      cases hrev1
    · rename_i hguard
      split
      · rename_i hm
        rw [hmine] at hm
        simp at hm
      · have hrevT : (g.board row col).isRevealed = false := by
          cases hb : (g.board row col).isRevealed
          · rfl
          · rw [hb] at hguard
            simp at hguard
        have hev1 := evolves_setRevealed g row col
        have hg1T : ((updateBoard g.board row col fun c => { c with isRevealed := true })
            row col).isRevealed = true := by rw [updateBoard_pos]
        split
        · rename_i hzero
          have hnomine := no_mine_adjacent_of_zero hc hrow hcol hmine hzero
          have hlt := unrevealedCard_setRevealed_lt g row col hrow hcol hrevT
          obtain ⟨cc1, cc2⟩ := revealCellF_cascade_foldl fuel
            (fun g' r' c' a b cc d e => revealCellF_cascade fuel g' r' c' a b cc d e)
            (getAdjacentCells g.rows g.cols row col)
            { g with
              board := updateBoard g.board row col fun c => { c with isRevealed := true },
              revealedCount := g.revealedCount + 1 }
            (countsCorrect_of_evolves hc hev1)
            (by
              intro q hq
              obtain ⟨h1, h2⟩ := getAdjacentCells_bounds hq
              refine ⟨h1, h2, ?_⟩
              rw [hev1.mine_eq]
              exact hnomine q hq)
            (by omega)
          have hev2 : Evolves
              { g with
                board := updateBoard g.board row col fun c => { c with isRevealed := true },
                revealedCount := g.revealedCount + 1 }
              ((getAdjacentCells g.rows g.cols row col).foldl
                (fun h x => revealCellF fuel h x.1 x.2)
                { g with
                  board := updateBoard g.board row col fun c => { c with isRevealed := true },
                  revealedCount := g.revealedCount + 1 }) :=
            evolves_foldl _ _ _ (fun h x _ => evolves_revealCellF fuel h x.1 x.2)
          have hrevT2 := hev2.rev_mono (r := row) (c := col) hg1T
          have hg1other : ∀ r c, ¬(r = row ∧ c = col) →
              ((updateBoard g.board row col fun cc =>
                { cc with isRevealed := true }) r c).isRevealed =
              (g.board r c).isRevealed := by
            intro r c h
            rw [updateBoard_neg _ _ _ _ h]
          split
          · exact cascade_leaf_zero g row col hev1 hev2 (evolves_winAct _)
              (fun _ _ => rfl) hrevT hg1other hrevT2 cc1 cc2
          · exact cascade_leaf_zero g row col hev1 hev2 (evolves_refl _)
              (fun _ _ => rfl) hrevT hg1other hrevT2 cc1 cc2
        · rename_i hnz
          have hXother : ∀ r c, ¬(r = row ∧ c = col) →
              ((updateBoard g.board row col fun cc =>
                { cc with isRevealed := true }) r c).isRevealed =
              (g.board r c).isRevealed := by
            intro r c h
            rw [updateBoard_neg _ _ _ _ h]
          split
          · exact cascade_leaf_nonzero g row col hrevT hg1T hXother hnz
          · exact cascade_leaf_nonzero g row col hrevT hg1T hXother hnz

/-! ### The win condition: `won` is entered exactly when the counter reaches
`totalNonMines` -/

theorem nonMineCard_of_evolves {g g' : Game} (hev : Evolves g g') :
    nonMineCard g' = nonMineCard g := by
  unfold nonMineCard
  rw [hev.rows_eq, hev.cols_eq]
  congr 1
  apply Finset.filter_congr
  intro p hp
  rw [hev.mine_eq]

theorem revealedCard_mono_of_evolves {g g' : Game} (hev : Evolves g g') :
    revealedCard g ≤ revealedCard g' := by
  unfold revealedCard
  rw [hev.rows_eq, hev.cols_eq]
  apply Finset.card_le_card
  intro p hp
  rw [Finset.mem_filter] at hp ⊢
  exact ⟨hp.1, hev.rev_mono hp.2⟩

theorem revealedCard_le_nonMineCard {g : Game}
    (h : ∀ r c, r < g.rows → c < g.cols → (g.board r c).isRevealed = true →
      (g.board r c).isMine = false) :
    revealedCard g ≤ nonMineCard g := by
  unfold revealedCard nonMineCard
  apply Finset.card_le_card
  intro p hp
  rw [Finset.mem_filter] at hp ⊢
  refine ⟨hp.1, ?_⟩
  have hgrid := hp.1
  rw [gridSet, Finset.mem_product, Finset.mem_range, Finset.mem_range] at hgrid
  exact h p.1 p.2 hgrid.1 hgrid.2 hp.2

/-- The game-state invariant maintained by safe reveals: counts are correct,
the counter equals the number of revealed cells, only non-mines are revealed,
and `totalNonMines` is the number of non-mine cells. -/
def SafeState (g : Game) : Prop :=
  countsCorrect g ∧ g.revealedCount = revealedCard g ∧
  (∀ r c, r < g.rows → c < g.cols → (g.board r c).isRevealed = true →
    (g.board r c).isMine = false) ∧
  g.totalNonMines = nonMineCard g

theorem SafeState_of_reveal (fuel : Nat) (g : Game) (row col : Nat)
    (hs : SafeState g) (hrow : row < g.rows) (hcol : col < g.cols)
    (hmine : (g.board row col).isMine = false) :
    SafeState (revealCellF fuel g row col) := by
  obtain ⟨hc, hcount, hrevmine, htot⟩ := hs
  have hev := evolves_revealCellF fuel g row col
  have hsafe := revealCellF_safe fuel g row col hc hrow hcol hmine
  have hcnt := revealCellF_count fuel g row col hc hrow hcol hmine
  refine ⟨countsCorrect_of_evolves hc hev, ?_, ?_, ?_⟩
  · unfold CountOutcome at hcnt
    omega
  · intro r c hr hcb hrev
    rw [hev.rows_eq] at hr
    rw [hev.cols_eq] at hcb
    rw [hev.mine_eq]
    rcases hsafe.2.2.2.1 r c hrev with hold | hnm
    · exact hrevmine r c hr hcb hold
    · exact hnm
  · rw [hev.total_eq, nonMineCard_of_evolves hev]
    exact htot

theorem SafeState_foldl (f : Nat) :
    ∀ (l : List (Nat × Nat)) (g : Game), SafeState g →
      (∀ p ∈ l, p.1 < g.rows ∧ p.2 < g.cols ∧ (g.board p.1 p.2).isMine = false) →
      SafeState (l.foldl (fun h p => revealCellF f h p.1 p.2) g)
  | [], g, hs, _ => hs
  | p :: l, g, hs, hl => by
    have hp := hl p (List.mem_cons_self p l)
    have hev : Evolves g (revealCellF f g p.1 p.2) := evolves_revealCellF f g p.1 p.2
    simp only [List.foldl_cons]
    refine SafeState_foldl f l (revealCellF f g p.1 p.2)
      (SafeState_of_reveal f g p.1 p.2 hs hp.1 hp.2.1 hp.2.2) ?_
    intro q hq
    obtain ⟨h1, h2, h3⟩ := hl q (List.mem_cons_of_mem p hq)
    rw [hev.rows_eq, hev.cols_eq, hev.mine_eq]
    exact ⟨h1, h2, h3⟩

theorem revealCellF_win_count_foldl (f : Nat)
    (IH : ∀ (g : Game) (row col : Nat), SafeState g → row < g.rows →
      col < g.cols → (g.board row col).isMine = false →
      (revealCellF f g row col).status = GameStatus.won →
      g.status = GameStatus.won ∨
        (revealCellF f g row col).revealedCount =
          (revealCellF f g row col).totalNonMines) :
    ∀ (l : List (Nat × Nat)) (g : Game), SafeState g →
      (∀ p ∈ l, p.1 < g.rows ∧ p.2 < g.cols ∧ (g.board p.1 p.2).isMine = false) →
      (l.foldl (fun h p => revealCellF f h p.1 p.2) g).status = GameStatus.won →
      g.status = GameStatus.won ∨
        (l.foldl (fun h p => revealCellF f h p.1 p.2) g).revealedCount =
          (l.foldl (fun h p => revealCellF f h p.1 p.2) g).totalNonMines
  | [], g, _, _, hwon => Or.inl hwon
  | p :: l, g, hs, hl, hwon => by
    have hp := hl p (List.mem_cons_self p l)
    have hev : Evolves g (revealCellF f g p.1 p.2) := evolves_revealCellF f g p.1 p.2
    have hs1 : SafeState (revealCellF f g p.1 p.2) :=
      SafeState_of_reveal f g p.1 p.2 hs hp.1 hp.2.1 hp.2.2
    have hl1 : ∀ q ∈ l, q.1 < (revealCellF f g p.1 p.2).rows ∧
        q.2 < (revealCellF f g p.1 p.2).cols ∧
        ((revealCellF f g p.1 p.2).board q.1 q.2).isMine = false := by
      intro q hq
      obtain ⟨h1, h2, h3⟩ := hl q (List.mem_cons_of_mem p hq)
      rw [hev.rows_eq, hev.cols_eq, hev.mine_eq]
      exact ⟨h1, h2, h3⟩
    simp only [List.foldl_cons] at hwon ⊢
    rcases revealCellF_win_count_foldl f IH l (revealCellF f g p.1 p.2) hs1 hl1 hwon
      with h1won | hdone
    · rcases IH g p.1 p.2 hs hp.1 hp.2.1 hp.2.2 h1won with hgwon | hfull
      · exact Or.inl hgwon
      · -- the counter already reached the total after the head call; it can
        -- neither grow past it nor shrink along the tail of the fold
        right
        have hevt : Evolves (revealCellF f g p.1 p.2)
            (l.foldl (fun h q => revealCellF f h q.1 q.2) (revealCellF f g p.1 p.2)) :=
          evolves_foldl _ _ _ (fun h x _ => evolves_revealCellF f h x.1 x.2)
        have hst : SafeState (l.foldl (fun h q => revealCellF f h q.1 q.2)
            (revealCellF f g p.1 p.2)) := SafeState_foldl f l _ hs1 hl1
        have hcnt := revealCellF_count_foldl f
          (fun g' r' c' a b cc d => revealCellF_count f g' r' c' a b cc d)
          l (revealCellF f g p.1 p.2) hs1.1 hl1
        have hmono := revealedCard_mono_of_evolves hevt
        have hle := revealedCard_le_nonMineCard hst.2.2.1
        have htoteq := hevt.total_eq
        have hnm := nonMineCard_of_evolves hevt
        unfold CountOutcome at hcnt
        have h1 := hs1.2.1
        have h2 := hst.2.1
        have h3 := hs1.2.2.2
        have h4 := hst.2.2.2
        omega
    · exact Or.inr hdone

/-- `win()` fires only when the counter has reached `totalNonMines`: if a
safe reveal ends with status `won`, either the game was already won or the
final counter equals the total non-mine count. -/
theorem revealCellF_win_count : ∀ (fuel : Nat) (g : Game) (row col : Nat),
    SafeState g → row < g.rows → col < g.cols →
    (g.board row col).isMine = false →
    (revealCellF fuel g row col).status = GameStatus.won →
    g.status = GameStatus.won ∨
      (revealCellF fuel g row col).revealedCount =
        (revealCellF fuel g row col).totalNonMines
  | 0, g, _, _, _, _, _, _, hwon => Or.inl hwon
  | fuel + 1, g, row, col, hs, hrow, hcol, hmine, hwon => by
    rw [revealCellF] at hwon
    dsimp only at hwon
    split at hwon
    · exact Or.inl hwon
    · split at hwon
      · rename_i hm
        rw [hmine] at hm
        simp at hm
      · rename_i hguard hm
        have hrev : (g.board row col).isRevealed = false := by
          cases hb : (g.board row col).isRevealed
          · rfl
          · rw [hb] at hguard
            simp at hguard
        have hev1 := evolves_setRevealed g row col
        have hs1 : SafeState
            { g with
              board := updateBoard g.board row col fun c => { c with isRevealed := true },
              revealedCount := g.revealedCount + 1 } := by
          obtain ⟨hc, hcount, hrevmine, htot⟩ := hs
          refine ⟨countsCorrect_of_evolves hc hev1, ?_, ?_, ?_⟩
          · rw [revealedCard_setRevealed g row col hrow hcol hrev]
            dsimp only
            omega
          · intro r c hr hcb hrevrc
            dsimp only at hrevrc ⊢
            by_cases hrc : r = row ∧ c = col
            · rw [hrc.1, hrc.2, updateBoard_pos]
              exact hmine
            · rw [updateBoard_neg _ _ _ _ hrc] at hrevrc ⊢
              exact hrevmine r c hr hcb hrevrc
          · rw [hev1.total_eq, nonMineCard_of_evolves hev1]
            exact htot
        split at hwon
        · rename_i hzero
          have hnomine := no_mine_adjacent_of_zero hs.1 hrow hcol hmine hzero
          have hl0 : ∀ q ∈ getAdjacentCells g.rows g.cols row col,
              q.1 < ({ g with
                board := updateBoard g.board row col fun c => { c with isRevealed := true },
                revealedCount := g.revealedCount + 1 } : Game).rows ∧
              q.2 < ({ g with
                board := updateBoard g.board row col fun c => { c with isRevealed := true },
                revealedCount := g.revealedCount + 1 } : Game).cols ∧
              (({ g with
                board := updateBoard g.board row col fun c => { c with isRevealed := true },
                revealedCount := g.revealedCount + 1 } : Game).board q.1 q.2).isMine
                = false := by
            intro q hq
            obtain ⟨h1, h2⟩ := getAdjacentCells_bounds hq
            refine ⟨h1, h2, ?_⟩
            rw [hev1.mine_eq]
            exact hnomine q hq
          split at hwon
          · rename_i hfull
            right
            have heq : revealCellF (fuel + 1) g row col =
                winAct ((getAdjacentCells g.rows g.cols row col).foldl
                  (fun h p => revealCellF fuel h p.1 p.2)
                  { g with
                    board := updateBoard g.board row col fun c =>
                      { c with isRevealed := true },
                    revealedCount := g.revealedCount + 1 }) := by
              rw [revealCellF]
              dsimp only
              rw [if_neg hguard, if_neg hm, if_pos hzero, if_pos hfull]
            rw [heq]
            exact hfull
          · rename_i hnotfull
            rcases revealCellF_win_count_foldl fuel
                (fun g' r' c' a b cc d e => revealCellF_win_count fuel g' r' c' a b cc d e)
                (getAdjacentCells g.rows g.cols row col) _ hs1 hl0 hwon with hg1won | hfull
            · dsimp only at hg1won
              exact Or.inl hg1won
            · exact absurd hfull hnotfull
        · rename_i hnz
          split at hwon
          · rename_i hfull
            right
            have heq : revealCellF (fuel + 1) g row col =
                winAct { g with
                  board := updateBoard g.board row col fun c =>
                    { c with isRevealed := true },
                  revealedCount := g.revealedCount + 1 } := by
              rw [revealCellF]
              dsimp only
              rw [if_neg hguard, if_neg hm, if_neg hnz, if_pos hfull]
            rw [heq]
            exact hfull
          · rename_i hnotfull
            dsimp only at hwon
            exact Or.inl hwon

/-! ### Mine placement -/

/-- Number of mine cells of a board function within given bounds. -/
def mineCardB (rows cols : Nat) (b : Nat → Nat → Cell) : Nat :=
  ((gridSet rows cols).filter fun p => (b p.1 p.2).isMine = true).card

theorem mineCardB_update (rows cols : Nat) (b : Nat → Nat → Cell) (row col : Nat)
    (hrow : row < rows) (hcol : col < cols) (hfresh : (b row col).isMine = false) :
    mineCardB rows cols (updateBoard b row col fun c => { c with isMine := true }) =
      mineCardB rows cols b + 1 := by
  unfold mineCardB
  have hins : ((gridSet rows cols).filter fun p =>
      ((updateBoard b row col fun c => { c with isMine := true }) p.1 p.2).isMine
        = true) =
      insert (row, col) ((gridSet rows cols).filter fun p =>
        (b p.1 p.2).isMine = true) := by
    ext p
    rw [Finset.mem_insert, Finset.mem_filter, Finset.mem_filter]
    constructor
    · rintro ⟨hgrid, hm⟩
      by_cases hpc : p.1 = row ∧ p.2 = col
      · left
        obtain ⟨h1, h2⟩ := hpc
        obtain ⟨pa, pb⟩ := p
        simp only at h1 h2
        rw [h1, h2]
      · right
        rw [updateBoard_neg _ _ _ _ hpc] at hm
        exact ⟨hgrid, hm⟩
    · rintro (rfl | ⟨hgrid, hm⟩)
      · refine ⟨by simp [gridSet, Finset.mem_product, hrow, hcol], ?_⟩
        rw [updateBoard_pos]
      · refine ⟨hgrid, ?_⟩
        by_cases hpc : p.1 = row ∧ p.2 = col
        · rw [hpc.1, hpc.2, updateBoard_pos]
        · rwa [updateBoard_neg _ _ _ _ hpc]
  rw [hins, Finset.card_insert_of_not_mem]
  rw [Finset.mem_filter]
  rintro ⟨-, hcontra⟩
  rw [hfresh] at hcontra
  cases hcontra

/-- Invariant of the placement loop: a successful run places exactly the
requested number of mines, none of them in the exclude zone. -/
theorem placeMinesAux_spec (rows cols : Nat) :
    ∀ (picks : List (Nat × Nat)) (mines : Nat) (excl : List (Nat × Nat))
      (b : Nat → Nat → Cell) (placed : Nat) (b' : Nat → Nat → Cell),
      placeMinesAux mines excl b placed picks = some b' →
      (∀ p ∈ picks, p.1 < rows ∧ p.2 < cols) →
      mineCardB rows cols b = placed → placed ≤ mines →
      (∀ p ∈ excl, (b p.1 p.2).isMine = false) →
      mineCardB rows cols b' = mines ∧ ∀ p ∈ excl, (b' p.1 p.2).isMine = false
  | [], mines, excl, b, placed, b', hres, _, hcard, hle, hexcl => by
    rw [placeMinesAux] at hres
    split at hres
    · cases hres
    · rename_i hnlt
      obtain rfl : b = b' := Option.some.inj hres
      have : placed = mines := by omega
      exact ⟨by rw [hcard, this], hexcl⟩
  | (row, col) :: rest, mines, excl, b, placed, b', hres, hpicks, hcard, hle, hexcl => by
    rw [placeMinesAux] at hres
    split at hres
    · rename_i hlt
      split at hres
      · rename_i hcond
        have hbounds := hpicks (row, col) (List.mem_cons_self _ _)
        refine placeMinesAux_spec rows cols rest mines excl _ (placed + 1) b' hres
          (fun p hp => hpicks p (List.mem_cons_of_mem _ hp)) ?_ (by omega) ?_
        · rw [mineCardB_update rows cols b row col hbounds.1 hbounds.2 hcond.1, hcard]
        · intro p hp
          have hpne : ¬(p.1 = row ∧ p.2 = col) := by
            rintro ⟨h1, h2⟩
            apply hcond.2
            have : p = (row, col) := by
              obtain ⟨pa, pb⟩ := p
              simp only at h1 h2
              rw [h1, h2]
            rw [← this]
            exact hp
          rw [updateBoard_neg _ _ _ _ hpne]
          exact hexcl p hp
      · exact placeMinesAux_spec rows cols rest mines excl b placed b' hres
          (fun p hp => hpicks p (List.mem_cons_of_mem _ hp)) hcard hle hexcl
    · rename_i hnlt
      obtain rfl : b = b' := Option.some.inj hres
      have : placed = mines := by omega
      exact ⟨by rw [hcard, this], hexcl⟩

/-- The placement loop succeeds whenever enough fresh, non-excluded picks
are supplied. -/
theorem placeMinesAux_total (mines : Nat) (excl : List (Nat × Nat)) :
    ∀ (avail : List (Nat × Nat)) (b : Nat → Nat → Cell) (placed : Nat),
      avail.Nodup →
      (∀ p ∈ avail, (b p.1 p.2).isMine = false ∧ p ∉ excl) →
      mines ≤ placed + avail.length →
      ∃ b', placeMinesAux mines excl b placed avail = some b'
  | [], b, placed, _, _, hlen => by
    rw [placeMinesAux]
    rw [if_neg (by simp at hlen; omega)]
    exact ⟨b, rfl⟩
  | (row, col) :: rest, b, placed, hnodup, havail, hlen => by
    rw [placeMinesAux]
    split
    · rename_i hlt
      have hhead := havail (row, col) (List.mem_cons_self _ _)
      rw [if_pos ⟨hhead.1, hhead.2⟩]
      refine placeMinesAux_total mines excl rest _ (placed + 1)
        (List.Nodup.of_cons hnodup) ?_ (by simp at hlen ⊢; omega)
      intro p hp
      have hne : ¬(p.1 = row ∧ p.2 = col) := by
        rintro ⟨h1, h2⟩
        have : p = (row, col) := by
          obtain ⟨pa, pb⟩ := p
          simp only at h1 h2
          rw [h1, h2]
        rw [this] at hp
        exact (List.nodup_cons.mp hnodup).1 hp
      rw [updateBoard_neg _ _ _ _ hne]
      exact havail p (List.mem_cons_of_mem _ hp)
    · exact ⟨b, rfl⟩

/-- `calculateAdjacentMines` only changes the stored adjacency counts. -/
theorem calcAdj_fields (g : Game) (r c : Nat) :
    ((calculateAdjacentMines g).board r c).isMine = (g.board r c).isMine ∧
    ((calculateAdjacentMines g).board r c).isRevealed = (g.board r c).isRevealed ∧
    ((calculateAdjacentMines g).board r c).isFlagged = (g.board r c).isFlagged := by
  unfold calculateAdjacentMines
  dsimp only
  split
  · exact ⟨rfl, rfl, rfl⟩
  · exact ⟨rfl, rfl, rfl⟩

/-- After `calculateAdjacentMines`, every in-bounds non-mine cell stores the
number of mines among its adjacent cells. -/
theorem countsCorrect_calcAdj (g : Game) : countsCorrect (calculateAdjacentMines g) := by
  intro row col hrow hcol hmine
  have hrow' : row < g.rows := hrow
  have hcol' : col < g.cols := hcol
  have hmine' : (g.board row col).isMine = false := by
    rw [← (calcAdj_fields g row col).1]
    exact hmine
  have hboard : ((calculateAdjacentMines g).board row col).adjacentMines =
      ((getAdjacentCells g.rows g.cols row col).filter
        fun p => (g.board p.1 p.2).isMine).length := by
    unfold calculateAdjacentMines
    dsimp only
    rw [if_pos ⟨hrow', hcol', hmine'⟩]
  rw [hboard]
  congr 1
  apply List.filter_congr
  intro p hp
  rw [(calcAdj_fields g p.1 p.2).1]

/-- The list of all in-bounds coordinates. -/
def gridList (rows cols : Nat) : List (Nat × Nat) :=
  List.range rows ×ˢ List.range cols

theorem gridList_nodup (rows cols : Nat) : (gridList rows cols).Nodup :=
  (List.nodup_range rows).product (List.nodup_range cols)

theorem gridList_length (rows cols : Nat) : (gridList rows cols).length = rows * cols := by
  rw [gridList, List.length_product, List.length_range, List.length_range]

theorem mem_gridList {rows cols : Nat} {p : Nat × Nat} :
    p ∈ gridList rows cols ↔ p.1 < rows ∧ p.2 < cols := by
  rw [gridList, List.mem_product]
  simp

/-- A duplicate-free list has at most as many members satisfying `q` as
`excl` has elements, when `q` implies membership in `excl`. -/
theorem length_filter_le_of_mem {α : Type} [DecidableEq α] (l excl : List α)
    (q : α → Bool) (hnodup : l.Nodup) (hq : ∀ a, q a = true → a ∈ excl) :
    (l.filter q).length ≤ excl.length := by
  have h1 : (l.filter q).Nodup := hnodup.filter _
  rw [← List.toFinset_card_of_nodup h1]
  calc (l.filter q).toFinset.card
      ≤ excl.toFinset.card := by
        apply Finset.card_le_card
        intro x hx
        rw [List.mem_toFinset] at hx ⊢
        have := List.mem_filter.mp hx
        exact hq x this.2
    _ ≤ excl.length := excl.toFinset_card_le

/-- A successful `placeMines` run with in-bounds picks places exactly
`g.mines` mines, none of them on the excluded cell or its adjacent cells,
and computes correct adjacency counts. -/
theorem placeMines_spec (g : Game) (excludeRow excludeCol : Nat)
    (picks : List (Nat × Nat)) (g' : Game)
    (hclean : ∀ r c, (g.board r c).isMine = false)
    (hpicks : ∀ p ∈ picks, p.1 < g.rows ∧ p.2 < g.cols)
    (hres : placeMines g excludeRow excludeCol picks = some g') :
    mineCard g' = g.mines ∧
    (g'.board excludeRow excludeCol).isMine = false ∧
    (∀ q ∈ getAdjacentCells g.rows g.cols excludeRow excludeCol,
      (g'.board q.1 q.2).isMine = false) ∧
    countsCorrect g' := by
  rw [placeMines] at hres
  split at hres
  · cases hres
  · rename_i b hb
    have hg' : calculateAdjacentMines { g with board := b } = g' :=
      Option.some.inj hres
    have hexcl0 : ∀ p ∈ getAdjacentCells g.rows g.cols excludeRow excludeCol ++
        [(excludeRow, excludeCol)], (g.board p.1 p.2).isMine = false :=
      fun p _ => hclean p.1 p.2
    have hcard0 : mineCardB g.rows g.cols g.board = 0 := by
      unfold mineCardB
      rw [Finset.card_eq_zero, Finset.filter_eq_empty_iff]
      intro p _
      rw [hclean p.1 p.2]
      simp
    obtain ⟨hcount, hexcl⟩ := placeMinesAux_spec g.rows g.cols picks g.mines _
      g.board 0 b hb hpicks hcard0 (Nat.zero_le _) hexcl0
    have hmine_eq : ∀ r c, (g'.board r c).isMine = (b r c).isMine := by
      intro r c
      rw [← hg']
      exact (calcAdj_fields { g with board := b } r c).1
    refine ⟨?_, ?_, ?_, ?_⟩
    · have hrows : g'.rows = g.rows := by
        rw [← hg']
        rfl
      have hcols : g'.cols = g.cols := by
        rw [← hg']
        rfl
      unfold mineCard
      rw [hrows, hcols, ← hcount]
      unfold mineCardB
      congr 1
      apply Finset.filter_congr
      intro p _
      rw [hmine_eq p.1 p.2]
    · rw [hmine_eq]
      exact hexcl (excludeRow, excludeCol) (by simp)
    · intro q hq
      rw [hmine_eq]
      exact hexcl q (by simp [hq])
    · rw [← hg']
      exact countsCorrect_calcAdj _

/-- With `mines < rows*cols - 9` there is a pick stream on which the
placement loop terminates successfully (the exclude zone has at most 9
cells, so enough free cells remain). -/
theorem placeMines_total (g : Game) (excludeRow excludeCol : Nat)
    (hclean : ∀ r c, (g.board r c).isMine = false)
    (hmines : g.mines < g.rows * g.cols - 9) :
    ∃ picks g', placeMines g excludeRow excludeCol picks = some g' ∧
      ∀ p ∈ picks, p.1 < g.rows ∧ p.2 < g.cols := by
  have hexcl_len : (getAdjacentCells g.rows g.cols excludeRow excludeCol ++
      [(excludeRow, excludeCol)]).length ≤ 9 := by
    rw [List.length_append, List.length_singleton]
    have := length_getAdjacentCells_le g.rows g.cols excludeRow excludeCol
    omega
  have hpart : (gridList g.rows g.cols).length =
      ((gridList g.rows g.cols).filter fun a =>
        decide (a ∉ getAdjacentCells g.rows g.cols excludeRow excludeCol ++
          [(excludeRow, excludeCol)])).length +
      ((gridList g.rows g.cols).filter fun a =>
        !(decide (a ∉ getAdjacentCells g.rows g.cols excludeRow excludeCol ++
          [(excludeRow, excludeCol)]))).length :=
    List.length_eq_length_filter_add _
  have hinlen : ((gridList g.rows g.cols).filter fun a =>
      !(decide (a ∉ getAdjacentCells g.rows g.cols excludeRow excludeCol ++
        [(excludeRow, excludeCol)]))).length ≤ 9 := by
    refine Nat.le_trans (length_filter_le_of_mem _ _ _
      (gridList_nodup g.rows g.cols) ?_) hexcl_len
    intro a ha
    simpa using ha
  obtain ⟨b', hb'⟩ := placeMinesAux_total g.mines
    (getAdjacentCells g.rows g.cols excludeRow excludeCol ++ [(excludeRow, excludeCol)])
    ((gridList g.rows g.cols).filter fun a =>
      decide (a ∉ getAdjacentCells g.rows g.cols excludeRow excludeCol ++
        [(excludeRow, excludeCol)]))
    g.board 0
    ((gridList_nodup g.rows g.cols).filter _)
    (by
      intro p hp
      have := List.mem_filter.mp hp
      refine ⟨hclean p.1 p.2, ?_⟩
      simpa using this.2)
    (by
      have hgl := gridList_length g.rows g.cols
      omega)
  refine ⟨(gridList g.rows g.cols).filter fun a =>
      decide (a ∉ getAdjacentCells g.rows g.cols excludeRow excludeCol ++
        [(excludeRow, excludeCol)]),
    calculateAdjacentMines { g with board := b' }, ?_, ?_⟩
  · rw [placeMines, hb']
  · intro p hp
    have := (List.mem_filter.mp hp).1
    exact mem_gridList.mp this

/-! ### Play-level lemmas: sequences of clicks -/

theorem evolves_revealCell (g : Game) (row col : Nat) :
    Evolves g (revealCell g row col) :=
  evolves_revealCellF _ g row col

theorem revealedCard_eq_zero {g : Game}
    (h : ∀ r c, (g.board r c).isRevealed = false) : revealedCard g = 0 := by
  unfold revealedCard
  rw [Finset.card_eq_zero, Finset.filter_eq_empty_iff]
  intro p _
  rw [h p.1 p.2]
  simp

/-- Revealing an unflagged, unrevealed mine runs `gameOver` immediately. -/
theorem revealCellF_mine (fuel : Nat) (g : Game) (row col : Nat)
    (hmine : (g.board row col).isMine = true)
    (hrev : (g.board row col).isRevealed = false)
    (hflag : (g.board row col).isFlagged = false) :
    revealCellF (fuel + 1) g row col =
      gameOverAct
        { g with
          board := updateBoard g.board row col fun c => { c with isRevealed := true },
          revealedCount := g.revealedCount + 1 } := by
  rw [revealCellF]
  dsimp only
  rw [if_neg (by rw [hrev, hflag]; simp), if_pos hmine]

/-- A reveal that proceeds past the guard ends in `won` whenever the final
counter equals `totalNonMines` (the closing win check of `revealCell`). -/
theorem revealCellF_full_won (fuel : Nat) (g : Game) (row col : Nat)
    (hrev : (g.board row col).isRevealed = false)
    (hflag : (g.board row col).isFlagged = false)
    (hmine : (g.board row col).isMine = false)
    (hfull : (revealCellF (fuel + 1) g row col).revealedCount =
      (revealCellF (fuel + 1) g row col).totalNonMines) :
    (revealCellF (fuel + 1) g row col).status = GameStatus.won := by
  rw [revealCellF] at hfull ⊢
  dsimp only at hfull ⊢
  rw [if_neg (by rw [hrev, hflag]; simp), if_neg (by rw [hmine]; simp)] at hfull ⊢
  by_cases hz : (g.board row col).adjacentMines = 0
  · rw [if_pos hz] at hfull ⊢
    split
    · rfl
    · rename_i hnw
      rw [if_neg hnw] at hfull
      exact absurd hfull hnw
  · rw [if_neg hz] at hfull ⊢
    split
    · rfl
    · rename_i hnw
      rw [if_neg hnw] at hfull
      exact absurd hfull hnw

theorem handleClickPlaced_dims (g : Game) (row col : Nat) :
    (handleClickPlaced g row col).rows = g.rows ∧
    (handleClickPlaced g row col).cols = g.cols := by
  unfold handleClickPlaced
  split
  · exact ⟨rfl, rfl⟩
  · split
    · exact ⟨rfl, rfl⟩
    · exact ⟨(evolves_revealCell g row col).rows_eq, (evolves_revealCell g row col).cols_eq⟩

/-- A sequence of reveal clicks (the post-first-click phase). -/
def runReveals (g : Game) (ops : List (Nat × Nat)) : Game :=
  ops.foldl (fun h p => handleClickPlaced h p.1 p.2) g

/-- The invariant along any sequence of reveal clicks: either the game is
lost (and locked by `isGameOver`), or the board is in a safe state, the game
is not lost, `isGameOver` captures exactly a win, and the game is won exactly
when the counter has reached `totalNonMines`. -/
def PlayInv (g : Game) : Prop :=
  (g.status = GameStatus.lost ∧ g.isGameOver = true) ∨
  (SafeState g ∧ g.status ≠ GameStatus.lost ∧
    (g.isGameOver = true ↔ g.status = GameStatus.won) ∧
    (g.status = GameStatus.won ↔ g.revealedCount = g.totalNonMines))

theorem PlayInv_step (g : Game) (row col : Nat) (hrow : row < g.rows)
    (hcol : col < g.cols) (hinv : PlayInv g) :
    PlayInv (handleClickPlaced g row col) := by
  rcases hinv with ⟨hlost, hgo⟩ | ⟨hs, hnl, hgoiff, hwiniff⟩
  · unfold handleClickPlaced
    rw [if_pos hgo]
    exact Or.inl ⟨hlost, hgo⟩
  · unfold handleClickPlaced
    by_cases hgo : g.isGameOver = true
    · rw [if_pos hgo]
      exact Or.inr ⟨hs, hnl, hgoiff, hwiniff⟩
    · rw [if_neg hgo]
      split
      · exact Or.inr ⟨hs, hnl, hgoiff, hwiniff⟩
      · rename_i hguard
        have hflag : (g.board row col).isFlagged = false := by
          cases hb : (g.board row col).isFlagged
          · rfl
          · rw [hb] at hguard
            simp at hguard
        have hrev : (g.board row col).isRevealed = false := by
          cases hb : (g.board row col).isRevealed
          · rfl
          · rw [hb] at hguard
            simp at hguard
        have hnwon : g.status ≠ GameStatus.won := by
          intro hw
          exact hgo (hgoiff.mpr hw)
        unfold revealCell
        cases hmine : (g.board row col).isMine
        · -- safe reveal
          have hsafe := revealCellF_safe (g.rows * g.cols + 1) g row col hs.1
            hrow hcol hmine
          have hs' : SafeState (revealCell g row col) :=
            SafeState_of_reveal _ g row col hs hrow hcol hmine
          have hwin := revealCellF_win_count (g.rows * g.cols + 1) g row col hs
            hrow hcol hmine
          refine Or.inr ⟨hs', ?_, ?_, ?_⟩
          · rcases hsafe.1 with hst | hst
            · rw [hst]
              exact hnl
            · rw [hst]
              intro hcontra
              cases hcontra
          · constructor
            · intro hgod
              rcases hsafe.2.1 with hg | hg
              · rw [hg] at hgod
                exact absurd (hgoiff.mp hgod) hnwon
              · exact hg.1
            · intro hwon
              rcases hsafe.2.2.2.2 hwon with hgod | hold
              · exact hgod
              · exact absurd hold hnwon
          · constructor
            · intro hwon
              rcases hwin hwon with hold | hfull
              · exact absurd hold hnwon
              · exact hfull
            · intro hfull
              exact revealCellF_full_won (g.rows * g.cols) g row col hrev hflag
                hmine hfull
        · -- mine reveal: the game is lost
          have heq := revealCellF_mine (g.rows * g.cols) g row col hmine hrev hflag
          left
          rw [heq]
          exact ⟨rfl, rfl⟩

theorem PlayInv_run : ∀ (ops : List (Nat × Nat)) (g : Game), PlayInv g →
    (∀ p ∈ ops, p.1 < g.rows ∧ p.2 < g.cols) → PlayInv (runReveals g ops) ∧
      (runReveals g ops).rows = g.rows ∧ (runReveals g ops).cols = g.cols
  | [], g, hinv, _ => ⟨hinv, rfl, rfl⟩
  | p :: ops, g, hinv, hops => by
    have hp := hops p (List.mem_cons_self p ops)
    have hdims := handleClickPlaced_dims g p.1 p.2
    have hrest := PlayInv_run ops (handleClickPlaced g p.1 p.2)
      (PlayInv_step g p.1 p.2 hp.1 hp.2 hinv)
      (by
        intro q hq
        rw [hdims.1, hdims.2]
        exact hops q (List.mem_cons_of_mem p hq))
    refine ⟨hrest.1, ?_, ?_⟩
    · rw [runReveals] at hrest ⊢
      rw [List.foldl_cons, hrest.2.1, hdims.1]
    · rw [runReveals] at hrest ⊢
      rw [List.foldl_cons, hrest.2.2, hdims.2]

/-! ### Concrete games used by the witnesses and counterexamples -/

def blankCell : Cell :=
  { isMine := false, isRevealed := false, isFlagged := false, adjacentMines := 0 }

def blankBoard : Nat → Nat → Cell := fun _ _ => blankCell

/-- Fresh 4×4 game with 2 mines yet to be placed. -/
def game4x4 : Game :=
  { board := blankBoard, rows := 4, cols := 4, mines := 2, minesLeft := 2,
    isGameOver := false, isFirstClick := true, timer := 0, timerRunning := false,
    revealedCount := 0, totalNonMines := 14, status := GameStatus.notStarted }

/-- Fresh 9×9 game (the default difficulty), after the first click. -/
def game9x9 : Game :=
  { board := blankBoard, rows := 9, cols := 9, mines := 10, minesLeft := 10,
    isGameOver := false, isFirstClick := false, timer := 0, timerRunning := true,
    revealedCount := 0, totalNonMines := 71, status := GameStatus.inProgress }

/-- 4×4 board with one mine at (3,3) and a flag at (2,2), before
adjacency-count computation. -/
def c2Base : Game :=
  { board := fun r c =>
      if r = 3 ∧ c = 3 then
        { isMine := true, isRevealed := false, isFlagged := false, adjacentMines := 0 }
      else if r = 2 ∧ c = 2 then
        { isMine := false, isRevealed := false, isFlagged := true, adjacentMines := 0 }
      else blankCell,
    rows := 4, cols := 4, mines := 1, minesLeft := 0,
    isGameOver := false, isFirstClick := false, timer := 0, timerRunning := true,
    revealedCount := 0, totalNonMines := 15, status := GameStatus.inProgress }

/-- The same board with adjacency counts computed. -/
def c2Game : Game := calculateAdjacentMines c2Base

/-- 1×2 board with one mine at (0,1), before adjacency-count computation. -/
def c3Base : Game :=
  { board := fun r c =>
      if r = 0 ∧ c = 1 then
        { isMine := true, isRevealed := false, isFlagged := false, adjacentMines := 0 }
      else blankCell,
    rows := 1, cols := 2, mines := 1, minesLeft := 1,
    isGameOver := false, isFirstClick := false, timer := 0, timerRunning := true,
    revealedCount := 0, totalNonMines := 1, status := GameStatus.inProgress }

/-- The same board with adjacency counts computed. -/
def c3Game : Game := calculateAdjacentMines c3Base

/-- A finished (game-over) 1×1 game with an unrevealed, unflagged cell. -/
def c7Game : Game :=
  { board := blankBoard, rows := 1, cols := 1, mines := 0, minesLeft := 0,
    isGameOver := true, isFirstClick := false, timer := 7, timerRunning := false,
    revealedCount := 0, totalNonMines := 1, status := GameStatus.lost }

/-- A running game used by the timer witness. -/
def c9Game : Game :=
  { board := blankBoard, rows := 2, cols := 2, mines := 1, minesLeft := 1,
    isGameOver := false, isFirstClick := false, timer := 5, timerRunning := true,
    revealedCount := 0, totalNonMines := 3, status := GameStatus.inProgress }

/-! ### The claims -/

/-- C1: for every board with `mines < rows*cols − 9` and a fresh (mine-free)
board, `placeMines(excludeRow, excludeCol)` admits a successful run of its
random-placement loop, and every successful run with in-bounds picks sets the
mine flag on exactly `mines` cells, with neither the excluded cell nor any of
its up-to-8 adjacent cells a mine. -/
theorem placeMines_count_and_exclusion (g : Game) (excludeRow excludeCol : Nat)
    (hclean : ∀ r c, (g.board r c).isMine = false)
    (hmines : g.mines < g.rows * g.cols - 9) :
    (∃ picks g', placeMines g excludeRow excludeCol picks = some g' ∧
      ∀ p ∈ picks, p.1 < g.rows ∧ p.2 < g.cols) ∧
    ∀ (picks : List (Nat × Nat)) (g' : Game),
      (∀ p ∈ picks, p.1 < g.rows ∧ p.2 < g.cols) →
      placeMines g excludeRow excludeCol picks = some g' →
      mineCard g' = g.mines ∧
      (g'.board excludeRow excludeCol).isMine = false ∧
      ∀ q ∈ getAdjacentCells g.rows g.cols excludeRow excludeCol,
        (g'.board q.1 q.2).isMine = false :=
  ⟨placeMines_total g excludeRow excludeCol hclean hmines,
    fun picks g' hb hres =>
      ⟨(placeMines_spec g excludeRow excludeCol picks g' hclean hb hres).1,
        (placeMines_spec g excludeRow excludeCol picks g' hclean hb hres).2.1,
        (placeMines_spec g excludeRow excludeCol picks g' hclean hb hres).2.2.1⟩⟩

theorem placeMines_count_and_exclusion_witness :
    game4x4.mines < game4x4.rows * game4x4.cols - 9 ∧
    ((∃ picks g', placeMines game4x4 1 1 picks = some g' ∧
      ∀ p ∈ picks, p.1 < game4x4.rows ∧ p.2 < game4x4.cols) ∧
    ∀ (picks : List (Nat × Nat)) (g' : Game),
      (∀ p ∈ picks, p.1 < game4x4.rows ∧ p.2 < game4x4.cols) →
      placeMines game4x4 1 1 picks = some g' →
      mineCard g' = game4x4.mines ∧
      (g'.board 1 1).isMine = false ∧
      ∀ q ∈ getAdjacentCells game4x4.rows game4x4.cols 1 1,
        (g'.board q.1 q.2).isMine = false) :=
  ⟨by decide,
    placeMines_count_and_exclusion game4x4 1 1 (fun _ _ => rfl) (by decide)⟩

/-- C4: in an in-progress game, revealing an unflagged, unrevealed mine cell
sets the status to Lost (never Won) and marks every in-bounds mine cell
revealed for display. -/
theorem reveal_mine_loses (g : Game) (row col : Nat)
    (hstatus : g.status = GameStatus.inProgress)
    (hmine : (g.board row col).isMine = true)
    (hrev : (g.board row col).isRevealed = false)
    (hflag : (g.board row col).isFlagged = false) :
    (revealCell g row col).status = GameStatus.lost ∧
    (revealCell g row col).status ≠ GameStatus.won ∧
    ∀ r c, r < g.rows → c < g.cols → (g.board r c).isMine = true →
      ((revealCell g row col).board r c).isRevealed = true := by
  have heq := revealCellF_mine (g.rows * g.cols) g row col hmine hrev hflag
  unfold revealCell
  rw [heq]
  refine ⟨rfl, ?_, ?_⟩
  · intro h
    cases h
  intro r c hr hc hm
  have hm1 : ((updateBoard g.board row col fun cc => { cc with isRevealed := true })
      r c).isMine = true := by
    unfold updateBoard
    split
    · exact hm
    · exact hm
  unfold gameOverAct
  dsimp only
  rw [if_pos ⟨hr, hc, hm1⟩]

theorem reveal_mine_loses_witness :
    (c3Game.board 0 1).isMine = true ∧
    ((revealCell c3Game 0 1).status = GameStatus.lost ∧
      (revealCell c3Game 0 1).status ≠ GameStatus.won ∧
      ∀ r c, r < c3Game.rows → c < c3Game.cols → (c3Game.board r c).isMine = true →
        ((revealCell c3Game 0 1).board r c).isRevealed = true) :=
  ⟨by decide, reveal_mine_loses c3Game 0 1 rfl (by decide) (by decide) (by decide)⟩

/-- C5: after `calculateAdjacentMines`, every in-bounds non-mine cell stores
the number of mine-bearing cells in its Moore neighborhood (the up to 8
surrounding cells, clipped at board edges), a value that never exceeds 8. -/
theorem adjacentMines_eq_moore_count (g : Game) (row col : Nat)
    (hrow : row < g.rows) (hcol : col < g.cols)
    (hmine : ((calculateAdjacentMines g).board row col).isMine = false) :
    ((calculateAdjacentMines g).board row col).adjacentMines =
      ((mooreNeighborhood g.rows g.cols row col).filter fun p =>
        (g.board p.1 p.2).isMine = true).card ∧
    ((calculateAdjacentMines g).board row col).adjacentMines ≤ 8 := by
  have hminep : (g.board row col).isMine = false := by
    rw [← (calcAdj_fields g row col).1]
    exact hmine
  have hval : ((calculateAdjacentMines g).board row col).adjacentMines =
      ((getAdjacentCells g.rows g.cols row col).filter
        fun p => (g.board p.1 p.2).isMine).length := by
    unfold calculateAdjacentMines
    dsimp only
    rw [if_pos ⟨hrow, hcol, hminep⟩]
  constructor
  · rw [hval]
    have hnd : ((getAdjacentCells g.rows g.cols row col).filter
        fun p => (g.board p.1 p.2).isMine).Nodup :=
      (getAdjacentCells_nodup _ _ _ _).filter _
    rw [← List.toFinset_card_of_nodup hnd, List.toFinset_filter,
      toFinset_getAdjacentCells]
  · rw [hval]
    exact Nat.le_trans (List.length_filter_le _ _)
      (length_getAdjacentCells_le _ _ _ _)

theorem adjacentMines_eq_moore_count_witness :
    ((calculateAdjacentMines c3Base).board 0 0).isMine = false ∧
    (((calculateAdjacentMines c3Base).board 0 0).adjacentMines =
      ((mooreNeighborhood c3Base.rows c3Base.cols 0 0).filter fun p =>
        (c3Base.board p.1 p.2).isMine = true).card ∧
      ((calculateAdjacentMines c3Base).board 0 0).adjacentMines ≤ 8) :=
  ⟨by decide, adjacentMines_eq_moore_count c3Base 0 0 (by decide) (by decide) (by decide)⟩

/-- C6: revealing a cell that is already revealed, or flagged, is a no-op:
the whole game state (board, counters, status) is unchanged, both at the
`revealCell` level and through the click handler. -/
theorem reveal_revealed_or_flagged_noop (g : Game) (row col : Nat)
    (h : (g.board row col).isRevealed = true ∨ (g.board row col).isFlagged = true) :
    revealCell g row col = g ∧ handleClickPlaced g row col = g := by
  have hguard : ((g.board row col).isRevealed || (g.board row col).isFlagged) = true := by
    rcases h with h | h <;> rw [h] <;> simp
  have hrc : revealCell g row col = g := by
    unfold revealCell
    rw [revealCellF]
    dsimp only
    rw [if_pos hguard]
  refine ⟨hrc, ?_⟩
  unfold handleClickPlaced
  split
  · rfl
  · split
    · rfl
    · exact hrc

theorem reveal_revealed_or_flagged_noop_witness :
    (c2Game.board 2 2).isFlagged = true ∧
    (revealCell c2Game 2 2 = c2Game ∧ handleClickPlaced c2Game 2 2 = c2Game) :=
  ⟨by decide, reveal_revealed_or_flagged_noop c2Game 2 2 (Or.inr (by decide))⟩

/-- C10: on a board with correct adjacency counts, revealing an in-bounds
non-mine cell never reveals a mine (the flood-fill cascade visits only safe
cells) and never sets the status to Lost: the game can be lost only by
directly revealing a mine. -/
theorem cascade_reveals_no_mine (g : Game) (row col : Nat)
    (hc : countsCorrect g) (hrow : row < g.rows) (hcol : col < g.cols)
    (hmine : (g.board row col).isMine = false) :
    ((revealCell g row col).status = g.status ∨
      (revealCell g row col).status = GameStatus.won) ∧
    (g.status ≠ GameStatus.lost → (revealCell g row col).status ≠ GameStatus.lost) ∧
    ∀ r c, (g.board r c).isRevealed = false →
      ((revealCell g row col).board r c).isRevealed = true →
      (g.board r c).isMine = false := by
  have hsafe := revealCellF_safe (g.rows * g.cols + 1) g row col hc hrow hcol hmine
  unfold revealCell
  refine ⟨hsafe.1, ?_, ?_⟩
  · intro hnl hcontra
    rcases hsafe.1 with hst | hst
    · rw [hcontra] at hst
      exact hnl hst.symm
    · rw [hcontra] at hst
      cases hst
  · intro r c hrev0 hrev1
    rcases hsafe.2.2.2.1 r c hrev1 with hold | hnm
    · rw [hrev0] at hold
      cases hold
    · exact hnm

theorem cascade_reveals_no_mine_witness :
    (c2Game.board 0 0).isMine = false ∧
    (((revealCell c2Game 0 0).status = c2Game.status ∨
        (revealCell c2Game 0 0).status = GameStatus.won) ∧
      (c2Game.status ≠ GameStatus.lost →
        (revealCell c2Game 0 0).status ≠ GameStatus.lost) ∧
      ∀ r c, (c2Game.board r c).isRevealed = false →
        ((revealCell c2Game 0 0).board r c).isRevealed = true →
        (c2Game.board r c).isMine = false) :=
  ⟨by decide, cascade_reveals_no_mine c2Game 0 0 (countsCorrect_calcAdj c2Base)
    (by decide) (by decide) (by decide)⟩

/-- C2 (amended): on a freshly generated board (counts computed, nothing yet
revealed), revealing an in-bounds, unrevealed, unflagged, non-mine cell with
adjacency count zero reveals a region in which every cell is connected to the
clicked cell through revealed cells; every revealed cell that still has an
unrevealed adjacent cell has positive count or that neighbor is flagged;
cells are revealed at most once (revelation is monotone and the counter
counts each revealed cell exactly once); and the cascade terminates: every
sufficient fuel computes the same fixed point. -/
theorem reveal_zero_cascade_region (g : Game) (row col : Nat)
    (hc : countsCorrect g)
    (hpristine : ∀ r c, (g.board r c).isRevealed = false)
    (hcount0 : g.revealedCount = 0)
    (hrow : row < g.rows) (hcol : col < g.cols)
    (hflag : (g.board row col).isFlagged = false)
    (hmine : (g.board row col).isMine = false)
    (hzero : (g.board row col).adjacentMines = 0) :
    (∀ r c, r < g.rows → c < g.cols →
      ((revealCell g row col).board r c).isRevealed = true →
      ReachesFrom (revealCell g row col) (row, col) (r, c)) ∧
    (∀ r c, r < g.rows → c < g.cols →
      ((revealCell g row col).board r c).isRevealed = true →
      ∀ q ∈ getAdjacentCells g.rows g.cols r c,
        ((revealCell g row col).board q.1 q.2).isRevealed = false →
        0 < (g.board r c).adjacentMines ∨ (g.board q.1 q.2).isFlagged = true) ∧
    (∀ r c, (g.board r c).isRevealed = true →
      ((revealCell g row col).board r c).isRevealed = true) ∧
    (revealCell g row col).revealedCount = revealedCard (revealCell g row col) ∧
    (∀ f, unrevealedCard g < f → revealCellF f g row col = revealCell g row col) := by
  have hf : unrevealedCard g < g.rows * g.cols + 1 :=
    Nat.lt_succ_of_le (unrevealedCard_le_size g)
  have hcas := revealCellF_cascade (g.rows * g.cols + 1) g row col hc hrow hcol hmine hf
  have hev := evolves_revealCell g row col
  have hcnt := revealCellF_count (g.rows * g.cols + 1) g row col hc hrow hcol hmine
  refine ⟨?_, ?_, ?_, ?_, ?_⟩
  · intro r c hr hcb hrev
    exact (hcas r c hr hcb (hpristine r c) hrev).2.1
  · intro r c hr hcb hrev q hq hqrev
    by_cases hz : (g.board r c).adjacentMines = 0
    · cases hfq : (g.board q.1 q.2).isFlagged
      · have hclos := (hcas r c hr hcb (hpristine r c) hrev).2.2 hz q hq hfq
        unfold revealCell at hqrev
        rw [hclos] at hqrev
        cases hqrev
      · exact Or.inr rfl
    · exact Or.inl (Nat.pos_of_ne_zero hz)
  · intro r c hrev
    exact hev.rev_mono hrev
  · have hz := revealedCard_eq_zero hpristine
    unfold CountOutcome at hcnt
    unfold revealCell
    omega
  · intro f hf'
    exact (revealCell_eq_revealCellF g row col hrow hcol hf').symm

theorem reveal_zero_cascade_region_witness :
    (game9x9.board 4 4).adjacentMines = 0 ∧
    ((∀ r c, r < game9x9.rows → c < game9x9.cols →
      ((revealCell game9x9 4 4).board r c).isRevealed = true →
      ReachesFrom (revealCell game9x9 4 4) (4, 4) (r, c)) ∧
    (∀ r c, r < game9x9.rows → c < game9x9.cols →
      ((revealCell game9x9 4 4).board r c).isRevealed = true →
      ∀ q ∈ getAdjacentCells game9x9.rows game9x9.cols r c,
        ((revealCell game9x9 4 4).board q.1 q.2).isRevealed = false →
        0 < (game9x9.board r c).adjacentMines ∨
          (game9x9.board q.1 q.2).isFlagged = true) ∧
    (∀ r c, (game9x9.board r c).isRevealed = true →
      ((revealCell game9x9 4 4).board r c).isRevealed = true) ∧
    (revealCell game9x9 4 4).revealedCount = revealedCard (revealCell game9x9 4 4) ∧
    (∀ f, unrevealedCard game9x9 < f →
      revealCellF f game9x9 4 4 = revealCell game9x9 4 4)) :=
  ⟨rfl,
    reveal_zero_cascade_region game9x9 4 4
      (by
        intro r c hr hc hm
        have hnil : (getAdjacentCells game9x9.rows game9x9.cols r c).filter
            (fun p => (game9x9.board p.1 p.2).isMine) = [] := by
          rw [List.filter_eq_nil_iff]
          intro p hp
          simp [game9x9, blankBoard, blankCell]
        rw [hnil]
        rfl)
      (fun _ _ => rfl) rfl (by decide) (by decide) rfl rfl rfl⟩

set_option maxRecDepth 100000

/-- C2 counterexample: 4×4 board, one mine at (3,3), counts computed, a flag
at (2,2); revealing the zero cell (0,0) leaves (1,1) revealed with count 0
and with all 8 of its neighbors on the board (so it is not at a board edge),
while its neighbor (2,2) stays unrevealed — the claimed boundary property
(count > 0 or board edge) fails for the boundary cell (1,1). -/
theorem reveal_zero_cascade_region_counterexample :
    countsCorrect c2Game ∧
    (c2Game.board 0 0).isRevealed = false ∧
    (c2Game.board 0 0).isFlagged = false ∧
    (c2Game.board 0 0).adjacentMines = 0 ∧
    ((revealCell c2Game 0 0).board 1 1).isRevealed = true ∧
    (c2Game.board 1 1).adjacentMines = 0 ∧
    ((2, 2) ∈ getAdjacentCells c2Game.rows c2Game.cols 1 1) ∧
    ((revealCell c2Game 0 0).board 2 2).isRevealed = false ∧
    (getAdjacentCells c2Game.rows c2Game.cols 1 1).length = 8 :=
  ⟨countsCorrect_calcAdj c2Base, by decide, by decide, by decide, by decide,
    by decide, by decide, by decide, by decide⟩

/-- C3 (amended): starting from a freshly generated board (counts computed,
nothing revealed, counter 0, at least one safe cell) and applying any
sequence of in-bounds reveal clicks, the game is in the Won state exactly
when the revealed-counter equals `totalNonMines` AND the game is not Lost
(the counter also counts the losing mine reveal, so a lost game can reach
the full count without winning). -/
theorem won_iff_full_count (g0 : Game) (ops : List (Nat × Nat))
    (hsafe : SafeState g0)
    (hstatus : g0.status = GameStatus.inProgress)
    (hgo : g0.isGameOver = false)
    (hcount0 : g0.revealedCount = 0)
    (htotal : 0 < g0.totalNonMines)
    (hops : ∀ p ∈ ops, p.1 < g0.rows ∧ p.2 < g0.cols) :
    ((runReveals g0 ops).status = GameStatus.won ↔
      ((runReveals g0 ops).revealedCount = (runReveals g0 ops).totalNonMines ∧
        (runReveals g0 ops).status ≠ GameStatus.lost)) := by
  have hinv0 : PlayInv g0 := by
    right
    refine ⟨hsafe, ?_, ?_, ?_⟩
    · rw [hstatus]
      intro h
      cases h
    · rw [hgo, hstatus]
      constructor
      · intro h
        cases h
      · intro h
        cases h
    · rw [hstatus]
      constructor
      · intro h
        cases h
      · intro h
        rw [hcount0] at h
        omega
  obtain ⟨hinv, -, -⟩ := PlayInv_run ops g0 hinv0 hops
  rcases hinv with ⟨hlost, -⟩ | ⟨-, hnl, -, hwiniff⟩
  · rw [hlost]
    constructor
    · intro h
      cases h
    · rintro ⟨-, hne⟩
      exact absurd rfl hne
  · constructor
    · intro hw
      exact ⟨hwiniff.mp hw, hnl⟩
    · rintro ⟨hful, -⟩
      exact hwiniff.mpr hful

theorem won_iff_full_count_witness :
    0 < c3Game.totalNonMines ∧
    ((runReveals c3Game [(0, 0)]).status = GameStatus.won ↔
      ((runReveals c3Game [(0, 0)]).revealedCount =
          (runReveals c3Game [(0, 0)]).totalNonMines ∧
        (runReveals c3Game [(0, 0)]).status ≠ GameStatus.lost)) :=
  ⟨by decide,
    won_iff_full_count c3Game [(0, 0)]
      ⟨countsCorrect_calcAdj c3Base,
        (revealedCard_eq_zero (by
          intro r c
          show ((calculateAdjacentMines c3Base).board r c).isRevealed = false
          rw [(calcAdj_fields c3Base r c).2.1]
          dsimp only [c3Base]
          split
          · rfl
          · rfl)).symm,
        (by
          intro r c _ _ hrev
          have hrev' : ((calculateAdjacentMines c3Base).board r c).isRevealed = true :=
            hrev
          rw [(calcAdj_fields c3Base r c).2.1] at hrev'
          revert hrev'
          dsimp only [c3Base]
          split
          · intro h
            cases h
          · intro h
            cases h),
        by decide⟩
      rfl rfl rfl (by decide) (by decide)⟩

/-- C3 counterexample: on the 1×2 board with a mine at (0,1) (total non-mine
count 1, nothing revealed), the single reveal of the mine cell increments the
counter to 1 = totalNonMines while the game becomes Lost, not Won — so
"Won exactly when revealed-count = rows*cols − mines" fails as stated. -/
theorem won_iff_full_count_counterexample :
    (∀ r, r < c3Game.rows → ∀ c, c < c3Game.cols →
      (c3Game.board r c).isRevealed = false) ∧
    c3Game.status = GameStatus.inProgress ∧
    (runReveals c3Game [(0, 1)]).revealedCount =
      (runReveals c3Game [(0, 1)]).totalNonMines ∧
    (runReveals c3Game [(0, 1)]).status = GameStatus.lost ∧
    (runReveals c3Game [(0, 1)]).status ≠ GameStatus.won :=
  ⟨by decide, rfl, by decide, by decide, by decide⟩

/-- C7 (amended): while the game is not over, toggling the flag of a
revealed cell is a no-op, and toggling an unrevealed cell flips its flagged
flag and adjusts `minesLeft` by −1 when flagging and +1 when unflagging,
with no lower bound (flagging with `minesLeft ≤ 0` drives it negative). -/
theorem toggle_flag_effect (g : Game) (row col : Nat)
    (hgo : g.isGameOver = false) :
    ((g.board row col).isRevealed = true → handleRightClick g row col = g) ∧
    ((g.board row col).isRevealed = false →
      ((handleRightClick g row col).board row col).isFlagged =
        !(g.board row col).isFlagged ∧
      (handleRightClick g row col).minesLeft =
        g.minesLeft + (if (g.board row col).isFlagged = false then -1 else 1) ∧
      ((g.board row col).isFlagged = false → g.minesLeft ≤ 0 →
        (handleRightClick g row col).minesLeft < 0)) := by
  have hgo' : ¬(g.isGameOver = true) := by
    rw [hgo]
    intro h
    cases h
  constructor
  · intro hrev
    unfold handleRightClick
    rw [if_neg hgo', if_pos hrev]
  · intro hrev
    have hrev' : ¬((g.board row col).isRevealed = true) := by
      rw [hrev]
      intro h
      cases h
    have hml : (handleRightClick g row col).minesLeft =
        g.minesLeft + (if (g.board row col).isFlagged = false then -1 else 1) := by
      unfold handleRightClick
      rw [if_neg hgo', if_neg hrev']
      dsimp only
      cases hf : (g.board row col).isFlagged <;> simp
    refine ⟨?_, hml, ?_⟩
    · unfold handleRightClick
      rw [if_neg hgo', if_neg hrev']
      dsimp only
      rw [updateBoard_pos]
    · intro hf hml0
      rw [hml, if_pos hf]
      omega

theorem toggle_flag_effect_witness :
    c3Game.isGameOver = false ∧
    (((c3Game.board 0 0).isRevealed = true → handleRightClick c3Game 0 0 = c3Game) ∧
    ((c3Game.board 0 0).isRevealed = false →
      ((handleRightClick c3Game 0 0).board 0 0).isFlagged =
        !(c3Game.board 0 0).isFlagged ∧
      (handleRightClick c3Game 0 0).minesLeft =
        c3Game.minesLeft + (if (c3Game.board 0 0).isFlagged = false then -1 else 1) ∧
      ((c3Game.board 0 0).isFlagged = false → c3Game.minesLeft ≤ 0 →
        (handleRightClick c3Game 0 0).minesLeft < 0))) :=
  ⟨rfl, toggle_flag_effect c3Game 0 0 rfl⟩

/-- C7 counterexample: once the game is over (`isGameOver = true`),
`handleRightClick` returns immediately, so toggling an unrevealed, unflagged
cell does NOT flip its flag — the claim's unconditional "toggling an
unrevealed cell flips the flagged flag" fails. -/
theorem toggle_flag_effect_counterexample :
    (c7Game.board 0 0).isRevealed = false ∧
    (c7Game.board 0 0).isFlagged = false ∧
    handleRightClick c7Game 0 0 = c7Game ∧
    ((handleRightClick c7Game 0 0).board 0 0).isFlagged = false :=
  have hnoop : handleRightClick c7Game 0 0 = c7Game := by
    have h : c7Game.isGameOver = true := rfl
    unfold handleRightClick
    rw [if_pos h]
  ⟨rfl, rfl, hnoop, by
    rw [hnoop]
    rfl⟩

/-- C8: the claim says out-of-range reveal/flag requests are rejected by
signaling an out-of-bounds condition with no undefined access; the code
performs no bounds validation — `this.board[row]` is `undefined` for an
out-of-range row (and `this.board[row][col]` for an out-of-range column),
and the following property access throws a `TypeError`.  Evaluating the
embedded handlers at the failing inputs shows the TypeError outcome (no
state is changed, but no out-of-bounds signal exists in the code). -/
theorem out_of_bounds_click_type_error :
    handleClickChecked game9x9 9 0 = Except.error JsError.typeErrorUndefined ∧
    handleClickChecked game9x9 0 9 = Except.error JsError.typeErrorUndefined ∧
    handleRightClickChecked game9x9 9 0 = Except.error JsError.typeErrorUndefined ∧
    handleRightClickChecked game9x9 0 99 = Except.error JsError.typeErrorUndefined ∧
    game9x9.isGameOver = false ∧ game9x9.rows = 9 ∧ game9x9.cols = 9 :=
  ⟨rfl, rfl, rfl, rfl, rfl, rfl, rfl⟩

/-- C9: the timer starts at 0 after `newGame` (which also stops any pending
interval), gains exactly one per elapsed-second tick while the interval runs
and the value is below 999, never exceeds 999, and is stopped by both `win`
and `gameOver`; a stopped timer ignores ticks. -/
theorem timer_behavior (g : Game) :
    (newGame g).timer = 0 ∧
    (newGame g).timerRunning = false ∧
    (startTimer (newGame g)).timer = 0 ∧
    (g.timerRunning = true → g.timer < 999 → (tick g).timer = g.timer + 1) ∧
    (g.timer ≤ 999 → (tick g).timer ≤ 999) ∧
    (g.timerRunning = false → tick g = g) ∧
    (winAct g).timerRunning = false ∧
    (gameOverAct g).timerRunning = false ∧
    (gameOverAct g).timer = g.timer ∧ (winAct g).timer = g.timer := by
  refine ⟨rfl, rfl, rfl, ?_, ?_, ?_, rfl, rfl, rfl, rfl⟩
  · intro hrun hlt
    unfold tick
    rw [if_pos hrun]
    dsimp only
    rw [if_neg (by omega)]
  · intro hle
    unfold tick
    split
    · dsimp only
      split
      · omega
      · omega
    · exact hle
  · intro hstop
    unfold tick
    rw [if_neg (by rw [hstop]; intro h; cases h)]

theorem timer_behavior_witness :
    c9Game.timerRunning = true ∧ c9Game.timer < 999 ∧
    (tick c9Game).timer = 6 ∧ (newGame c9Game).timer = 0 ∧ tick c7Game = c7Game :=
  ⟨rfl, by decide, (timer_behavior c9Game).2.2.2.1 rfl (by decide),
    (timer_behavior c9Game).1, (timer_behavior c7Game).2.2.2.2.2.1 rfl⟩

end Minesweeper
